import Mathlib

/-!
Verification of the patch-history engine (`src/index.ts`): a shallow
embedding of its path model, exclusion filter, diff, rollback replayer and
change-capture protocol, together with proofs of the specification's claims.

JSON-like values are modelled by the inductive `Json`.  The constructor
`Json.undef` stands for JavaScript's `undefined`: it is used for array
holes created by `delete arr[i]` and for absent patch values.  Property
access on primitives (e.g. string indices, `length` of arrays) yields
`undefined` in this model; such accesses are unreachable from the
repository's data.
-/

inductive Json where
  | undef
  | null
  | bool (b : Bool)
  | num (q : Rat)
  | str (s : String)
  | arr (elems : List Json)
  | obj (fields : List (String × Json))

mutual

def Json.decEq : (a b : Json) → Decidable (a = b)
  | .undef, .undef => .isTrue rfl
  | .null, .null => .isTrue rfl
  | .bool a, .bool b =>
    if h : a = b then .isTrue (by rw [h]) else .isFalse (by simp [h])
  | .num a, .num b =>
    if h : a = b then .isTrue (by rw [h]) else .isFalse (by simp [h])
  | .str a, .str b =>
    if h : a = b then .isTrue (by rw [h]) else .isFalse (by simp [h])
  | .arr a, .arr b =>
    match Json.decEqList a b with
    | .isTrue h => .isTrue (by rw [h])
    | .isFalse h => .isFalse (by simp [h])
  | .obj a, .obj b =>
    match Json.decEqFields a b with
    | .isTrue h => .isTrue (by rw [h])
    | .isFalse h => .isFalse (by simp [h])
  | .undef, .null | .undef, .bool _ | .undef, .num _ | .undef, .str _
  | .undef, .arr _ | .undef, .obj _ => .isFalse (by simp)
  | .null, .undef | .null, .bool _ | .null, .num _ | .null, .str _
  | .null, .arr _ | .null, .obj _ => .isFalse (by simp)
  | .bool _, .undef | .bool _, .null | .bool _, .num _ | .bool _, .str _
  | .bool _, .arr _ | .bool _, .obj _ => .isFalse (by simp)
  | .num _, .undef | .num _, .null | .num _, .bool _ | .num _, .str _
  | .num _, .arr _ | .num _, .obj _ => .isFalse (by simp)
  | .str _, .undef | .str _, .null | .str _, .bool _ | .str _, .num _
  | .str _, .arr _ | .str _, .obj _ => .isFalse (by simp)
  | .arr _, .undef | .arr _, .null | .arr _, .bool _ | .arr _, .num _
  | .arr _, .str _ | .arr _, .obj _ => .isFalse (by simp)
  | .obj _, .undef | .obj _, .null | .obj _, .bool _ | .obj _, .num _
  | .obj _, .str _ | .obj _, .arr _ => .isFalse (by simp)

def Json.decEqList : (xs ys : List Json) → Decidable (xs = ys)
  | [], [] => .isTrue rfl
  | [], _ :: _ => .isFalse (by simp)
  | _ :: _, [] => .isFalse (by simp)
  | x :: xs, y :: ys =>
    match Json.decEq x y with
    | .isTrue h1 =>
      match Json.decEqList xs ys with
      | .isTrue h2 => .isTrue (by rw [h1, h2])
      | .isFalse h2 => .isFalse (by simp [h2])
    | .isFalse h1 => .isFalse (by simp [h1])

def Json.decEqFields : (xs ys : List (String × Json)) → Decidable (xs = ys)
  | [], [] => .isTrue rfl
  | [], _ :: _ => .isFalse (by simp)
  | _ :: _, [] => .isFalse (by simp)
  | (k, v) :: xs, (l, w) :: ys =>
    if hk : k = l then
      match Json.decEq v w with
      | .isTrue h1 =>
        match Json.decEqFields xs ys with
        | .isTrue h2 => .isTrue (by rw [hk, h1, h2])
        | .isFalse h2 => .isFalse (by simp [h2])
      | .isFalse h1 => .isFalse (by simp [h1])
    else .isFalse (by simp [hk])

end

instance : DecidableEq Json := Json.decEq

/-! ## Path model (`getArrayFromPath`, `sanitizeEmptyPath`, `isPathContained`)

`src/index.ts` lines 158-264. -/

/-- `'/'` marker for any array index in an exclude pattern (`ARRAY_INDEX_WILDCARD`). -/
def ARRAY_INDEX_WILDCARD : String := "*"

/-- Splits a character list at every `'/'` (JS `String.prototype.split('/')`):
the empty list yields `[[]]`, mirroring `''.split('/') === ['']`. -/
def splitSlash : List Char → List (List Char)
  | [] => [[]]
  | c :: t =>
    match splitSlash t with
    | [] => [[]]
    | g :: gs => if c = '/' then [] :: g :: gs else (c :: g) :: gs

/-- Splits a json-patch path `/path/to/object` into `["path","to","object"]`;
`"/"` becomes `[""]` (JS `'/'.replace(/^\//,'').split('/')`). -/
def getArrayFromPath (path : String) : List String :=
  (splitSlash (match path.data with | '/' :: t => t | cs => cs)).map
    (fun g => String.mk g)

/-- `sanitizeEmptyPath`: turns the split of the root path `[""]` into `[]`. -/
def sanitizeEmptyPath (path : List String) : List String :=
  if path = [""] then [] else path

/-- Model of ECMAScript whitespace accepted by `Number(string)`. -/
def isJsWhitespace (c : Char) : Bool :=
  c = ' ' || c = '\t' || c = '\n' || c = '\r' ||
  c = (Char.ofNat 0xB) || c = (Char.ofNat 0xC) || c = (Char.ofNat 0xA0) ||
  c = (Char.ofNat 0x2028) || c = (Char.ofNat 0x2029) || c = (Char.ofNat 0xFEFF)

def isDecDigit (c : Char) : Bool := '0' ≤ c && c ≤ '9'

def decDigitVal (c : Char) : Nat := c.toNat - '0'.toNat

/-- The value of a digit in radix 16/8/2, `none` when the character is no
such digit. -/
def radixDigitVal (radix : Nat) (c : Char) : Option Nat :=
  if isDecDigit c then
    let v := decDigitVal c
    if v < radix then some v else none
  else if radix = 16 && 'a' ≤ c && c ≤ 'f' then some (c.toNat - 'a'.toNat + 10)
  else if radix = 16 && 'A' ≤ c && c ≤ 'F' then some (c.toNat - 'A'.toNat + 10)
  else none

def radixVal (radix : Nat) : List Char → Option Nat
  | [] => some 0
  | c :: cs =>
    match radixDigitVal radix c, radixVal radix cs with
    | some v, some acc => some (v * radix ^ cs.length + acc)
    | _, _ => none

/-- Value of a non-empty run of decimal digits. -/
def decVal (cs : List Char) : Nat := (radixVal 10 cs).getD 0

/-- Parses the unsigned decimal part `digits [. digits] [e/E [+-] digits]`
of a JS numeric string; `none` when malformed (JS `NaN`).  The result
`(n, k)` stands for the exact rational `n / 10^k`. -/
def parseUnsignedDec (cs : List Char) : Option (Int × Nat) :=
  let ip := cs.takeWhile isDecDigit
  let r1 := cs.dropWhile isDecDigit
  let (fp, r2) : List Char × List Char :=
    match r1 with
    | '.' :: t => (t.takeWhile isDecDigit, t.dropWhile isDecDigit)
    | _ => ([], r1)
  let hasDot : Bool := match r1 with | '.' :: _ => true | _ => false
  if ip = [] && fp = [] then none
  else
    let mantissa : Int := (decVal ip : Int) * 10 ^ fp.length + (decVal fp : Int)
    let expPart : List Char := if hasDot then r2 else r1
    match expPart with
    | [] => some (mantissa, fp.length)
    | e :: t =>
      if e = 'e' || e = 'E' then
        let (eneg, t') : Bool × List Char :=
          match t with
          | '+' :: u => (false, u)
          | '-' :: u => (true, u)
          | _ => (false, t)
        if t' ≠ [] && t'.all isDecDigit then
          let ex := decVal t'
          if eneg then some (mantissa, fp.length + ex)
          else if ex ≤ fp.length then some (mantissa, fp.length - ex)
          else some (mantissa * 10 ^ (ex - fp.length), 0)
        else none
      else none

/-- Model of JavaScript `Number(string)` (ECMAScript ToNumber on strings),
as an exact pair `(n, k)` standing for `n / 10^k`: whitespace-trimmed;
`''` is `0`; `0x`/`0o`/`0b` radix literals; signed decimal with optional
fraction and exponent. `none` stands for `NaN` and for `±Infinity`
(neither is an integer, which is all the source asks of the result).
Floating-point rounding is not modelled: the exact value is kept. -/
def jsNumberParts (s : String) : Option (Int × Nat) :=
  let cs := (s.data.dropWhile isJsWhitespace).reverse.dropWhile isJsWhitespace |>.reverse
  match cs with
  | [] => some (0, 0)
  | '0' :: c :: rest =>
    if c = 'x' || c = 'X' then
      if rest ≠ [] then (radixVal 16 rest).map (fun n => ((n : Int), 0)) else none
    else if c = 'o' || c = 'O' then
      if rest ≠ [] then (radixVal 8 rest).map (fun n => ((n : Int), 0)) else none
    else if c = 'b' || c = 'B' then
      if rest ≠ [] then (radixVal 2 rest).map (fun n => ((n : Int), 0)) else none
    else parseUnsignedDec cs
  | '+' :: t => if t = "Infinity".data then none else parseUnsignedDec t
  | '-' :: t =>
    if t = "Infinity".data then none
    else (parseUnsignedDec t).map (fun p => (-p.1, p.2))
  | _ => if cs = "Infinity".data then none else parseUnsignedDec cs

/-- The rational value of JavaScript `Number(string)` (`none` = NaN/Infinity). -/
def jsNumber (s : String) : Option Rat :=
  (jsNumberParts s).map (fun p => (p.1 : Rat) / (10 : Rat) ^ p.2)

/-- `entryIsIdentical` of the source: literal segment equality. -/
def entryIsIdentical (entry1 entry2 : String) : Bool := entry1 == entry2

/-- `isArrayIndexWildcard` of the source. -/
def isArrayIndexWildcard (entry : String) : Bool := entry == ARRAY_INDEX_WILDCARD

/-- `isIntegerGreaterEqual0`: JS `Number.isInteger(Number(entry)) && Number(entry) >= 0`,
decided on the exact parts `(n, k)` (value `n / 10^k`): the value is an
integer iff `10^k` divides `n`.  `isIntegerGreaterEqual0_iff_jsNumber`
relates this to the rational value of `jsNumber`. -/
def isIntegerGreaterEqual0 (entry : String) : Bool :=
  match jsNumberParts entry with
  | some (n, k) => decide ((10 : Int) ^ k ∣ n) && decide (0 ≤ n)
  | none => false

/-- `matchesArrayWildcard` of the source. -/
def matchesArrayWildcard (entry1 entry2 : String) : Bool :=
  isArrayIndexWildcard entry1 && isIntegerGreaterEqual0 entry2

/-- `isPathContained(fractionPath, fullPath)`: every segment of
`fractionPath` matches the same-position segment of `fullPath` literally
or as an array wildcard.  When `fractionPath` is longer than `fullPath`,
JS compares against `undefined`, which neither check accepts. -/
def isPathContained : List String → List String → Bool
  | [], _ => true
  | _ :: _, [] => false
  | e :: es, c :: cs => (entryIsIdentical e c || matchesArrayWildcard e c) && isPathContained es cs

/-! ## JSON property access, deletion and update

These model the dynamic-object manipulation `deepRemovePath` performs on a
patch operation's `value` (`src/index.ts` lines 179-235). -/

/-- The decimal digits of `n`, most significant first; `fuel` bounds the
number of digits (any `fuel > log10 n` gives the exact rendering). -/
def natToCharsAux (fuel n : Nat) : List Char :=
  match fuel with
  | 0 => []
  | f + 1 =>
    if n < 10 then [Char.ofNat ('0'.toNat + n)]
    else natToCharsAux f (n / 10) ++ [Char.ofNat ('0'.toNat + n % 10)]

/-- Decimal rendering of a natural number (`String(n)` in JS). -/
def natToString (n : Nat) : String := String.mk (natToCharsAux (n + 1) n)

/-- The numeric value of a non-empty all-digit string, `none` otherwise. -/
def digitsVal (s : String) : Option Nat :=
  if s.data ≠ [] && s.data.all isDecDigit then some (decVal s.data) else none

/-- A canonical array index: the strings under which JavaScript arrays
store their elements (`"0"`, `"1"`, ...; `"01"` or `"1e0"` are plain
property names, absent on an array). -/
def parseArrayIndex (s : String) : Option Nat :=
  match digitsVal s with
  | some n => if natToString n = s then some n else none
  | none => none

/-- `Array.isArray` check used by the wildcard branch. -/
def Json.isArr : Json → Bool
  | .arr _ => true
  | _ => false

/-- The elements of an array value (`[]` on anything else; only read
behind an `isArr` check). -/
def Json.arrElems : Json → List Json
  | .arr elems => elems
  | _ => []

/-- JS property read `value?.[key]` combined with the source's
`typeof ... === 'undefined'` test: `none` means the access yields
`undefined`.  Object reads look the key up; array reads use canonical
indices (a hole yields `undefined`).  Reads on primitives yield
`undefined` (string character/`length` properties are not modelled; the
repository never reaches them). -/
def jsonGet : Json → String → Option Json
  | .obj fields, key =>
    match fields.find? (fun p => p.1 = key) with
    | some p => if p.2 = .undef then none else some p.2
    | none => none
  | .arr elems, key =>
    match parseArrayIndex key with
    | some i =>
      match elems.get? i with
      | some e => if e = .undef then none else some e
      | none => none
    | none => none
  | _, _ => none

/-- JS `delete value[key]`: on an object the property disappears; on an
array the element becomes a hole (`undefined`) and the length is kept. -/
def jsonDelete : Json → String → Json
  | .obj fields, key => .obj (fields.filter (fun p => p.1 ≠ key))
  | .arr elems, key =>
    match parseArrayIndex key with
    | some i => .arr (elems.set i .undef)
    | none => .arr elems
  | v, _ => v

/-- Write-back of a mutated child `value[key] = child` (the in-place
mutation `deepRemovePath` performs while walking): replaces the value of
the property `key` / the element at the canonical index `key`. -/
def jsonSet : Json → String → Json → Json
  | .obj fields, key, child =>
    .obj (fields.map (fun p => if p.1 = key then (p.1, child) else p))
  | .arr elems, key, child =>
    match parseArrayIndex key with
    | some i => .arr (elems.set i child)
    | none => .arr elems
  | v, _, _ => v

/-- `Object.keys(x).length === 0`: an object with no properties, an array
whose every slot is a hole, or a primitive (primitives have no own keys). -/
def jsonKeysEmpty : Json → Bool
  | .obj fields => fields.isEmpty
  | .arr elems => elems.all (fun e => e = .undef)
  | _ => true

/-- The walk `deepRemovePath` performs below the operation's own path:
`middle` is the run of exclude-path segments iterated by its `for` loop
and `lastKey` the final exclude segment.  Returns the rewritten value and
whether the walk acted (performed a `delete`, or took the wildcard
fan-out branch, which in the source returns straight away).  Mirrors
`src/index.ts` lines 194-231; the emptiness checks of those lines look at
the operation's top-level value and are applied by `deepRemovePath`. -/
def walkPrune : Json → List String → String → Json × Bool
  | v, [], lastKey =>
    match jsonGet v lastKey with
    | none => (v, false)
    | some _ => (jsonDelete v lastKey, true)
  | v, seg :: rest, lastKey =>
    if seg == ARRAY_INDEX_WILDCARD && v.isArr then
      (.arr (v.arrElems.map
        (fun e => if e = .undef then e else (walkPrune e rest lastKey).1)), true)
    else
      match jsonGet v seg with
      | none => (v, false)
      | some child =>
        let r := walkPrune child rest lastKey
        (if r.2 then jsonSet v seg r.1 else v, r.2)

/-- `deepRemovePath(patch, excludePath)` on a patch operation with path
`path` and value `value`: when the operation's (sanitized) path is
contained in `excludePath`, walk the value along the remaining segments
and delete the excluded sub-value.  Returns the pruned value and the
boolean the source returns (`false` exactly when the patch value was
mutated — a delete or the wildcard fan-out — and its top level is left
with no keys, `Object.keys(patch.value).length === 0`). -/
def deepRemovePath (path : String) (value : Json) (excludePath : List String) :
    Json × Bool :=
  let operationPath := sanitizeEmptyPath (getArrayFromPath path)
  if isPathContained operationPath excludePath then
    match excludePath.getLast? with
    | none => (value, true)
    | some lastKey =>
      let middle := (excludePath.drop operationPath.length).dropLast
      let r := walkPrune value middle lastKey
      (r.1, !(r.2 && jsonKeysEmpty r.1))
  else (value, true)

/-! ## Patch operations and the exclusion filter of `createPatch` -/

/-- A json-patch operation as the plugin stores it (`PatchOperation`):
`value` is `Json.undef` when the operation carries no value;
`originalValue` is attached by the original-value annotator when the
`trackOriginalValue` option is on. -/
structure PatchOp where
  op : String
  path : String
  value : Json := .undef
  fromPath : Option String := none
  originalValue : Json := .undef
deriving DecidableEq

/-- Threads one operation's value through `deepRemovePath` for each
exclude path in order, stopping at the first `false` — the evaluation
order of `options.excludes.every(...)`, whose callback mutates
`op.value`. -/
def runDeepRemoves (path : String) : Json → List (List String) → Json × Bool
  | v, [] => (v, true)
  | v, e :: es =>
    let r := deepRemovePath path v e
    if r.2 then runDeepRemoves path r.1 es else (r.1, false)

/-- The exclusion filter of `createPatch` (`src/index.ts` lines 479-491):
an operation is dropped when some exclude path contains its path
(whole-operation exclusion), and otherwise has its value deep-pruned by
every exclude path, surviving unless a prune empties it. -/
def processOp (excludes : List (List String)) (op : PatchOp) : Option PatchOp :=
  let pathArray := getArrayFromPath op.path
  if excludes.any (fun ex => isPathContained ex pathArray) then none
  else
    let r := runDeepRemoves op.path op.value excludes
    if r.2 then some { op with value := r.1 } else none

/-- `ops.filter(...)` of `createPatch` with the in-place value mutation
made explicit: the surviving operations carry their pruned values. -/
def filterOps (ops : List PatchOp) (excludes : List (List String)) : List PatchOp :=
  ops.filterMap (processOp excludes)

/-! ## Diff engine: `fast-json-patch`'s `compare` on normalized snapshots

`createPatch` diffs the prior snapshot against the current data view with
`jsonpatch.compare` (`src/index.ts` line 461).  The library's `_generate`
walks both trees; the recursion below carries explicit fuel, which only
ever descends into subterms of the mirror, so `compare` hands it
`sizeOf mirror`, an upper bound on the nesting depth. -/

def Json.isUndef : Json → Bool
  | .undef => true
  | _ => false

/-- `typeof v === 'object' && v !== null`. -/
def Json.isContainer : Json → Bool
  | .arr _ => true
  | .obj _ => true
  | _ => false

/-- json-pointer escaping of one path component (`~` → `~0`, `/` → `~1`). -/
def escapeChars : List Char → List Char
  | [] => []
  | '~' :: t => '~' :: '0' :: escapeChars t
  | '/' :: t => '~' :: '1' :: escapeChars t
  | c :: t => c :: escapeChars t

def escapePathComponent (s : String) : String := String.mk (escapeChars s.data)

/-- json-pointer unescaping of one path component (`~1` → `/`, `~0` → `~`). -/
def unescapeChars : List Char → List Char
  | [] => []
  | '~' :: '1' :: t => '/' :: unescapeChars t
  | '~' :: '0' :: t => '~' :: unescapeChars t
  | c :: t => c :: unescapeChars t

def unescapePathComponent (s : String) : String := String.mk (unescapeChars s.data)

/-- `_objectKeys`: the own enumerable keys of a value — field names of an
object in insertion order, index strings of an array. -/
def objectKeys : Json → List String
  | .obj fields => fields.map (fun p => p.1)
  | .arr elems => (List.range elems.length).map natToString
  | _ => []

/-- `hasOwnProperty` (compare inputs are hole-free, so array slots in
range are own properties). -/
def hasOwnProp : Json → String → Bool
  | .obj fields, key => fields.any (fun p => p.1 = key)
  | .arr elems, key =>
    match parseArrayIndex key with
    | some i => i < elems.length
    | none => false
  | _, _ => false

/-- Own-property read returning `undefined` when absent. -/
def getOwn : Json → String → Json
  | .obj fields, key =>
    match fields.find? (fun p => p.1 = key) with
    | some p => p.2
    | none => .undef
  | .arr elems, key =>
    match parseArrayIndex key with
    | some i => (elems.get? i).getD .undef
    | none => .undef
  | _, _ => (.undef)

/-- JS `===` as `_generate` uses it on non-recursed values: value equality
on primitives; two containers reaching this comparison are distinct
objects, hence never `===`. -/
def jsStrictEqScalar : Json → Json → Bool
  | .undef, .undef => true
  | .null, .null => true
  | .bool a, .bool b => a == b
  | .num a, .num b => a == b
  | .str a, .str b => a == b
  | _, _ => false

/-- One old-key step of `_generate`'s first loop: the emitted operations
and whether a `remove` was emitted (the `deleted` flag). -/
def generateOldKey (genRec : Json → Json → String → List PatchOp)
    (mirror obj : Json) (path key : String) : List PatchOp × Bool :=
  let oldVal := getOwn mirror key
  if hasOwnProp obj key &&
      !((getOwn obj key).isUndef && !oldVal.isUndef && !obj.isArr) then
    let newVal := getOwn obj key
    if oldVal.isContainer && newVal.isContainer && (oldVal.isArr == newVal.isArr) then
      (genRec oldVal newVal (path ++ "/" ++ escapePathComponent key), false)
    else if jsStrictEqScalar oldVal newVal then ([], false)
    else
      ([{ op := "replace", path := path ++ "/" ++ escapePathComponent key,
          value := newVal }], false)
  else if mirror.isArr == obj.isArr then
    ([{ op := "remove", path := path ++ "/" ++ escapePathComponent key }], true)
  else
    ([{ op := "replace", path := path, value := obj }], false)

/-- `fast-json-patch`'s `_generate(mirror, obj, patches, path)`: old keys
are visited in reverse order (emitting recursions, replaces and removes),
then, unless nothing was deleted and the key counts agree, new keys in
order emit `add`s. -/
def generate : Nat → Json → Json → String → List PatchOp
  | 0, _, _, _ => []
  | fuel + 1, mirror, obj, path =>
    let oldKeys := objectKeys mirror
    let newKeys := objectKeys obj
    let pass1 := oldKeys.reverse.map (generateOldKey (generate fuel) mirror obj path)
    let ops1 := pass1.flatMap (fun r => r.1)
    let deleted := pass1.any (fun r => r.2)
    if !deleted && newKeys.length == oldKeys.length then ops1
    else
      ops1 ++ newKeys.filterMap (fun key =>
        if !hasOwnProp mirror key && !(getOwn obj key).isUndef then
          some { op := "add", path := path ++ "/" ++ escapePathComponent key,
                 value := getOwn obj key }
        else none)

mutual

/-- A structural size of a value, an upper bound on its nesting depth:
positive, and larger than the size of every nested value. -/
def Json.fuel : Json → Nat
  | .arr elems => Json.fuelList elems + 1
  | .obj fields => Json.fuelFields fields + 1
  | _ => 1

def Json.fuelList : List Json → Nat
  | [] => 0
  | e :: t => Json.fuel e + Json.fuelList t

def Json.fuelFields : List (String × Json) → Nat
  | [] => 0
  | p :: t => Json.fuel p.2 + Json.fuelFields t

end

/-- `jsonpatch.compare(tree1, tree2)` (named after the library call; plain
`compare` would clash with `Ord.compare`): `_generate`'s recursion only
ever descends into values nested in the mirror, so `Json.fuel tree1`
steps never run out. -/
def jsonpatchCompare (tree1 tree2 : Json) : List PatchOp :=
  generate (Json.fuel tree1) tree1 tree2 ""

/-! ## Patch application: `jsonpatch.applyPatch(state, ops, true)`

Standard json-patch (RFC 6902) application as `fast-json-patch` performs
it with validation on: unresolvable paths, bad array indices,
out-of-bounds adds, missing `value`/`from` members and failed `test`s all
raise, and a raised error aborts the whole `applyPatch` call. -/

inductive ApplyErr where
  | pathInvalid
  | pathUnresolvable
  | badArrayIndex
  | outOfBounds
  | valueRequired
  | fromRequired
  | testFailed
  | opInvalid
deriving DecidableEq

/-- The components of a json-pointer: split at `/`, drop the leading empty
component, unescape `~1`/`~0`.  `""` (the root) yields `[]`. -/
def pointerKeys (path : String) : Option (List String) :=
  match path.data with
  | [] => some []
  | '/' :: t => some ((splitSlash t).map (fun g => String.mk (unescapeChars g)))
  | _ => none

/-- The all-digits array-index reading `fast-json-patch` uses during
application (`~~key`): unlike property access, `"01"` is accepted here. -/
def applyIndex (s : String) : Option Nat :=
  if s.data ≠ [] && s.data.all isDecDigit then some (decVal s.data) else none

/-- Association-list lookup without the `undefined`-value test. -/
def findFieldRaw : List (String × Json) → String → Option Json
  | [], _ => none
  | (k, v) :: t, key => if k = key then some v else findFieldRaw t key

/-- Child access during application (`obj = obj[key]` in
`applyOperation`'s walk): object property, or array element through the
permissive `~~key` index reading. -/
def jpChild (v : Json) (key : String) : Option Json :=
  match v with
  | .obj fields => findFieldRaw fields key
  | .arr elems =>
    match applyIndex key with
    | some i => elems.get? i
    | none => none
  | _ => none

/-- Write-back of a mutated child during application. -/
def jpSet (v : Json) (key : String) (child : Json) : Json :=
  match v with
  | .obj fields =>
    .obj (fields.map (fun p => if p.1 = key then (p.1, child) else p))
  | .arr elems =>
    match applyIndex key with
    | some i => .arr (elems.set i child)
    | none => .arr elems
  | w => w

/-- Replaces the value of the first field named `key` (JS `obj[key] = v`
on an existing property keeps its position). -/
def setField : List (String × Json) → String → Json → List (String × Json)
  | [], _, _ => []
  | (k, v) :: t, key, value =>
    if k = key then (k, value) :: t else (k, v) :: setField t key value

/-- `add` below the root: insert/overwrite an object key, insert into an
array at an index (or `-` for append). -/
def jpAdd : Json → List String → Json → Except ApplyErr Json
  | _, [], value => .ok value
  | .obj fields, [key], value =>
    if fields.any (fun p => p.1 = key) then .ok (.obj (setField fields key value))
    else .ok (.obj (fields ++ [(key, value)]))
  | .arr elems, [key], value =>
    if key = "-" then .ok (.arr (elems ++ [value]))
    else
      match applyIndex key with
      | some i =>
        if i > elems.length then .error .outOfBounds
        else .ok (.arr (elems.insertIdx i value))
      | none => .error .badArrayIndex
  | v, key :: rest, value =>
    match jpChild v key with
    | some child => (jpAdd child rest value).map (fun c => jpSet v key c)
    | none => .error .pathUnresolvable

/-- `remove` below the root: delete an object key or splice an array element. -/
def jpRemove : Json → List String → Except ApplyErr Json
  | _, [] => .error .pathUnresolvable
  | .obj fields, [key] =>
    if fields.any (fun p => p.1 = key) then .ok (.obj (fields.filter (fun p => p.1 ≠ key)))
    else .error .pathUnresolvable
  | .arr elems, [key] =>
    match applyIndex key with
    | some i =>
      if i < elems.length then .ok (.arr (elems.eraseIdx i))
      else .error .pathUnresolvable
    | none => .error .badArrayIndex
  | v, key :: rest =>
    match jpChild v key with
    | some child => (jpRemove child rest).map (fun c => jpSet v key c)
    | none => .error .pathUnresolvable

/-- `replace` below the root: overwrite an existing object key / array slot. -/
def jpReplace : Json → List String → Json → Except ApplyErr Json
  | _, [], value => .ok value
  | .obj fields, [key], value =>
    if fields.any (fun p => p.1 = key) then .ok (.obj (setField fields key value))
    else .error .pathUnresolvable
  | .arr elems, [key], value =>
    match applyIndex key with
    | some i =>
      if i < elems.length then .ok (.arr (elems.set i value))
      else .error .pathUnresolvable
    | none => .error .badArrayIndex
  | v, key :: rest, value =>
    match jpChild v key with
    | some child => (jpReplace child rest value).map (fun c => jpSet v key c)
    | none => .error .pathUnresolvable

/-- `getValueByPointer` on parsed keys. -/
def jpGet : Json → List String → Except ApplyErr Json
  | v, [] => .ok v
  | v, key :: rest =>
    match jpChild v key with
    | some child => jpGet child rest
    | none => .error .pathUnresolvable

/-- One operation of `applyOperation(document, op, true)`. -/
def applyOperation (doc : Json) (o : PatchOp) : Except ApplyErr Json :=
  match pointerKeys o.path with
  | none => .error .pathInvalid
  | some keys =>
    match o.op with
    | "add" =>
      if o.value.isUndef then .error .valueRequired else jpAdd doc keys o.value
    | "replace" =>
      if o.value.isUndef then .error .valueRequired else jpReplace doc keys o.value
    | "remove" =>
      if keys = [] then .ok .null else jpRemove doc keys
    | "test" =>
      if o.value.isUndef then .error .valueRequired
      else do
        let v ← jpGet doc keys
        if v = o.value then .ok doc else .error .testFailed
    | "move" =>
      match o.fromPath with
      | none => .error .fromRequired
      | some f =>
        match pointerKeys f with
        | none => .error .pathInvalid
        | some fkeys => do
          let v ← jpGet doc fkeys
          let doc' ← if fkeys = [] then .ok .null else jpRemove doc fkeys
          jpAdd doc' keys v
    | "copy" =>
      match o.fromPath with
      | none => .error .fromRequired
      | some f =>
        match pointerKeys f with
        | none => .error .pathInvalid
        | some fkeys => do
          let v ← jpGet doc fkeys
          jpAdd doc keys v
    | _ => .error .opInvalid

/-- `jsonpatch.applyPatch(document, ops, true)`: the operations in order,
each applied to the previous result; the first error aborts. -/
def applyPatch (doc : Json) (ops : List PatchOp) : Except ApplyErr Json :=
  ops.foldlM applyOperation doc

/-! ## lodash `merge(data, state)` -/

mutual

/-- lodash `merge(object, source)`: a deep merge in which the *source*
wins — here the destination is the caller's `data` and the source the
reconstructed `state` of `rollback` (`this.set(merge(data, state))`,
`src/index.ts` line 403).  Plain objects and arrays are merged
recursively (arrays index-wise), any other source value overwrites, and
an `undefined` source value leaves the destination entry in place. -/
def jsonMerge : Json → Json → Json
  | dst, .undef => dst
  | .obj d, .obj s => .obj (mergeFields d s)
  | .arr d, .arr s => .arr (mergeElems d s)
  | _, src => src

def mergeFields : List (String × Json) → List (String × Json) → List (String × Json)
  | d, [] => d
  | d, (key, sv) :: rest =>
    let merged :=
      match findFieldRaw d key with
      | some dv => jsonMerge dv sv
      | none => sv
    let d' := if (findFieldRaw d key).isSome then setField d key merged
      else d ++ [(key, merged)]
    mergeFields d' rest

def mergeElems : List Json → List Json → List Json
  | d, [] => d
  | [], s => s
  | dv :: dt, sv :: st => jsonMerge dv sv :: mergeElems dt st

end

/-! ## Rollback replayer (`schema.methods.rollback`, `src/index.ts` 362-413)

The history is the document's patch records sorted by date, which is how
`rollback` fetches them (`find({ref}).sort({date:1})`).  The model returns
the state the method sets on the document (`this.set(merge(data, state))`)
or the error it rejects with; a rejection leaves the document unchanged. -/

/-- The errors `rollback` rejects with, and apply failures raised while
replaying (`jsonpatch.applyPatch(..., true)` throws on invalid patches). -/
inductive RollbackErr where
  | unknownPatch
  | noOpRollback
  | applyFailure (e : ApplyErr)
deriving DecidableEq

/-- A stored patch record as `rollback` consumes it: its id and operations. -/
structure PatchRec where
  id : String
  ops : List PatchOp
deriving DecidableEq

/-- lodash `dropRightWhile`: removes trailing elements while the predicate
holds. -/
def dropRightWhile (p : α → Bool) (l : List α) : List α :=
  (l.reverse.dropWhile p).reverse

/-- Replays records in order onto the empty state
(`apply.forEach(patch => jsonpatch.applyPatch(state, patch.ops, true))`). -/
def applyRecords (recs : List PatchRec) : Except RollbackErr Json :=
  recs.foldlM (fun st r => (applyPatch st r.ops).mapError RollbackErr.applyFailure)
    (Json.obj [])

/-- `rollback(patchId, data)`: reject `unknownPatch` when no record has the
requested id; keep the records up to the last occurrence of the id
(`dropRightWhile`); reject `noOpRollback` when that is the whole history;
otherwise replay them onto `{}` and merge the caller's `data` under the
reconstructed state. -/
def rollback (patches : List PatchRec) (patchId : String) (data : Json) :
    Except RollbackErr Json :=
  if !(patches.map (fun p => p.id)).contains patchId then .error .unknownPatch
  else
    let toApply := dropRightWhile (fun p => p.id ≠ patchId) patches
    if patches.length = toApply.length then .error .noOpRollback
    else (applyRecords toApply).map (fun state => jsonMerge data state)

/-! ## Change-capture protocol for conditional updates

`src/index.ts` lines 274-294 (`mergeQueryConditionsWithUpdate`), 456-529
(`createPatch`), 553-620 (`preUpdateOne`/`postUpdateOne`) and 633-689
(`preUpdateMany`/`postUpdateMany`).  The asynchronous store is passed in
as a function returning `Except String` (a `String` error modelling any
store failure, which propagates); a capture context carries what the
pre-update hooks stored. -/

/-- JS truthiness of a value. -/
def jsTruthy : Json → Bool
  | .undef => false
  | .null => false
  | .bool b => b
  | .num q => !(q == 0)
  | .str s => !(s == "")
  | _ => true

/-- `Object.assign(target, source)` on plain objects: existing keys are
overwritten in place, new keys appended in source order. -/
def assignFields : List (String × Json) → List (String × Json) → List (String × Json)
  | d, [] => d
  | d, (key, sv) :: rest =>
    let d' := if (findFieldRaw d key).isSome then setField d key sv else d ++ [(key, sv)]
    assignFields d' rest

/-- `key.includes('$')`. -/
def keyHasDollar (key : String) : Bool := key.data.any (fun c => c = '$')

/-- `mergeQueryConditionsWithUpdate(_conditions, _update)`: takes the
update's `$set` sub-object when present (and truthy), else the update
itself; `Object.assign`s it over the conditions; then deletes every key
of the result that contains a `'$'` anywhere.  A non-object update
contributes no enumerable string-keyed properties to `Object.assign`. -/
def mergeQueryConditionsWithUpdate (conditions : List (String × Json))
    (update : Option Json) : List (String × Json) :=
  let upd : Option Json :=
    match update with
    | some u =>
      match u with
      | .obj fields =>
        match findFieldRaw fields "$set" with
        | some sv => if jsTruthy sv then some sv else some u
        | none => some u
      | _ => some u
    | none => none
  let merged :=
    match upd with
    | some (.obj us) => assignFields conditions us
    | _ => conditions
  merged.filter (fun p => !keyHasDollar p.1)

/-- The store's mutation result as `postUpdateOne`/`postUpdateMany` read
it: `lastErrorObjectN` models `modifyResult?.lastErrorObject?.n` (`none`
covers a missing `lastErrorObject` or missing `n`), `upsertedCount`
models `modifyResult?.upsertedCount`. -/
structure ModifyResult where
  lastErrorObjectN : Option Int
  upsertedCount : Option Int
deriving DecidableEq

/-- The skip test `modifyResult?.lastErrorObject?.n === 0 &&
modifyResult?.upsertedCount === 0` (`result` may also be `null`). -/
def noMatchNoUpsert : Option ModifyResult → Bool
  | some r => r.lastErrorObjectN == some 0 && r.upsertedCount == some 0
  | none => false

/-- A document as the capture protocol sees it: its identity, its
normalized data view (`document.data()`), the prior snapshot attached to
it (`document._original`, absent when the document was just created), and
mongoose's `isNew` flag. -/
structure CaptureDoc where
  id : String
  data : Json
  original : Option Json := none
  isNew : Bool := false
deriving DecidableEq

/-- The plugin options the capture path reads. -/
structure PluginOptions where
  excludes : List (List String) := []
  trackOriginalValue : Bool := false

/-- A stored change record (its `ref` and `ops`; `date` and caller-declared
`includes` fields are outside the modelled scope). -/
structure Rec where
  ref : String
  ops : List PatchOp
deriving DecidableEq

/-- Splits a character list at every occurrence of `sep`. -/
def splitChar (sep : Char) : List Char → List (List Char)
  | [] => [[]]
  | c :: t =>
    match splitChar sep t with
    | [] => [[]]
    | g :: gs => if c = sep then [] :: g :: gs else (c :: g) :: gs

/-- The lodash path `tail(entry.path.split('/')).join('.')` as the segment
list lodash `get` walks: the path components after the leading empty one,
re-split at `'.'` by lodash's string-to-path conversion. -/
def dottedSegs (path : String) : List String :=
  ((splitChar '/' path.data).map (fun g => String.mk g)).tail.flatMap
    (fun s => (splitChar '.' s.data).map (fun g => String.mk g))

/-- lodash `get(value, path)`: walks object keys and canonical array
indices, yielding `undefined` off the end. -/
def lodashGet : Json → List String → Json
  | v, [] => v
  | v, key :: rest =>
    match v with
    | .obj fields =>
      match findFieldRaw fields key with
      | some child => lodashGet child rest
      | none => .undef
    | .arr elems =>
      match parseArrayIndex key with
      | some i =>
        match elems.get? i with
        | some child => lodashGet child rest
        | none => .undef
      | none => .undef
    | _ => (.undef)

/-- The pure core of `createPatch` (`src/index.ts` 456-529): diff the
prior snapshot (`document._original || {}`) against the current data
view, filter by the exclude paths when any are configured, drop the
no-change case, and annotate original values when enabled.  Returns the
change record to insert, or `none` when nothing is recorded. -/
def createPatchRecord (opts : PluginOptions) (doc : CaptureDoc) : Option Rec :=
  let ops0 := jsonpatchCompare (doc.original.getD (.obj [])) doc.data
  let ops1 := if opts.excludes.length > 0 then filterOps ops0 opts.excludes else ops0
  if ops1.length = 0 then none
  else
    let ops2 :=
      if opts.trackOriginalValue then
        ops1.map (fun entry =>
          let source : Json := if doc.isNew then .obj [] else doc.original.getD .undef
          { entry with originalValue := lodashGet source (dottedSegs entry.path) })
      else ops1
    some { ref := doc.id, ops := ops2 }

/-- The capture context `preUpdateOne` leaves for `postUpdateOne`:
`originalId`/`original` are set iff the pre-update lookup matched. -/
structure UpdateOneCtx where
  conditions : List (String × Json)
  update : Option Json := none
  originalId : Option String := none
  original : Option Json := none

/-- `postUpdateOne` (`src/index.ts` 582-620): skip on a no-match/no-upsert
result; else resolve the affected document — by captured identity when
one exists, otherwise by the merged conditions — re-attach the captured
prior snapshot and run `createPatch`.  Returns the records inserted. -/
def postUpdateOne (result : Option ModifyResult) (ctx : UpdateOneCtx)
    (opts : PluginOptions)
    (findOne : List (String × Json) → Except String (Option CaptureDoc)) :
    Except String (List Rec) :=
  if noMatchNoUpsert result then .ok []
  else
    let conditions : List (String × Json) :=
      match ctx.originalId with
      | some oid => [("_id", .obj [("$eq", .str oid)])]
      | none => mergeQueryConditionsWithUpdate ctx.conditions ctx.update
    do
      let found ← findOne conditions
      match found with
      | none => .ok []
      | some doc => .ok (createPatchRecord opts { doc with original := ctx.original }).toList

/-- The capture context `preUpdateMany` leaves for `postUpdateMany`:
index-aligned identities and prior snapshots of every matched document. -/
structure UpdateManyCtx where
  conditions : List (String × Json)
  update : Option Json := none
  originalIds : List String := []
  originals : List Json := []

/-- `postUpdateMany` (`src/index.ts` 652-689): skip on a
no-match/no-upsert result; else resolve the affected set (by captured
identities when any, otherwise by merged conditions), pair each resolved
document with the same-position captured snapshot (`this._originals?.[i]`,
`undefined` past the end) and run `createPatch` per document. -/
def postUpdateMany (result : Option ModifyResult) (ctx : UpdateManyCtx)
    (opts : PluginOptions)
    (find : List (String × Json) → Except String (List CaptureDoc)) :
    Except String (List Rec) :=
  if noMatchNoUpsert result then .ok []
  else
    let conditions : List (String × Json) :=
      if ctx.originalIds.length > 0 then
        [("_id", .obj [("$in", .arr (ctx.originalIds.map (fun i => .str i)))])]
      else mergeQueryConditionsWithUpdate ctx.conditions ctx.update
    do
      let docs ← find conditions
      .ok (docs.enum.filterMap (fun p =>
        createPatchRecord opts { p.2 with original := ctx.originals.get? p.1 }))

/-! ## Spec-side definitions and concrete scenario data -/

/-- The specification's reading of the containment check: every pattern
segment at position `i` equals the concrete segment at `i` literally, or
is the wildcard and the concrete segment at `i` parses (by JS `Number`)
as a non-negative integer; positions beyond the pattern are
unconstrained, so a shorter pattern matches as a prefix. -/
def specPatternMatches (pattern concrete : List String) : Prop :=
  ∀ i e, pattern.get? i = some e →
    ∃ c, concrete.get? i = some c ∧
      (e = c ∨ (e = ARRAY_INDEX_WILDCARD ∧ isIntegerGreaterEqual0 c = true))

/-- The state `rollback` reconstructs before merging the caller's
overrides: the prefix-selection and replay steps of `rollback` without
the final `merge(data, state)`. -/
def reconstructState (patches : List PatchRec) (patchId : String) :
    Except RollbackErr Json :=
  if !(patches.map (fun p => p.id)).contains patchId then .error .unknownPatch
  else
    let toApply := dropRightWhile (fun p => p.id ≠ patchId) patches
    if patches.length = toApply.length then .error .noOpRollback
    else applyRecords toApply

/-- The `Object.assign({}, _conditions, update)` stage of
`mergeQueryConditionsWithUpdate` (the update's `$set` sub-object when
truthy, else the update itself, assigned over the conditions), before
any key is deleted. -/
def mergeAssignStage (conditions : List (String × Json)) (update : Option Json) :
    List (String × Json) :=
  let upd : Option Json :=
    match update with
    | some u =>
      match u with
      | .obj fields =>
        match findFieldRaw fields "$set" with
        | some sv => if jsTruthy sv then some sv else some u
        | none => some u
      | _ => some u
    | none => none
  match upd with
  | some (.obj us) => assignFields conditions us
  | _ => conditions

/-- An update-operator key as the specification speaks of them: a key
beginning with `'$'` (`$set`, `$inc`, `$in`, ...). -/
def isUpdateOperatorKey (key : String) : Bool :=
  match key.data with
  | '$' :: _ => true
  | _ => false

/-- The specification's merged lookup conditions: the merge stage with
every update-operator key removed — as opposed to the source, which
removes every key merely *containing* `'$'`. -/
def specMergedLookupConditions (conditions : List (String × Json))
    (update : Option Json) : List (String × Json) :=
  (mergeAssignStage conditions update).filter (fun p => !isUpdateOperatorKey p.1)

/-- Element 0 (and 2) of the C4 scenario: `property.hidden` is set. -/
def c4HiddenElem : Json := .obj [("property", .obj [("hidden", .str "h")])]

/-- Element 1 of the C4 scenario: no `hidden` key anywhere. -/
def c4PlainElem : Json := .obj [("other", .str "v")]

/-- The C4 document: a 3-element array at `/object/array` whose elements
0 and 2 carry `property.hidden` and whose element 1 does not. -/
def c4Doc : Json :=
  .obj [("object", .obj [("array", .arr [c4HiddenElem, c4PlainElem, c4HiddenElem])])]

/-- The C4 exclude option, parsed the way the plugin parses
`opts.excludes` (`options.excludes = excludes.map(getArrayFromPath)`). -/
def c4Excludes : List (List String) := [getArrayFromPath "/object/array/*/property/hidden"]

/-- Constructor discriminator, used to state that pruning never changes a
value's top-level shape. -/
def Json.ctorIdx : Json → Nat
  | .undef => 0
  | .null => 1
  | .bool _ => 2
  | .num _ => 3
  | .str _ => 4
  | .arr _ => 5
  | .obj _ => 6

/-- `deepRemovePath` leaves the value unchanged and reports `true`: the
state an operation's value is in once its excluded sub-paths are gone. -/
def DrClean (path : String) (excludePath : List String) (v : Json) : Prop :=
  deepRemovePath path v excludePath = (v, true)

/-! # Theorems -/

/-! ## Supporting lemmas -/

theorem den_div_pow_ten_eq_one_iff (n : Int) (k : Nat) :
    ((n : Rat) / (10 : Rat) ^ k).den = 1 ↔ (10 : Int) ^ k ∣ n := by
  have h10 : ((10 : Rat) ^ k) ≠ 0 := by positivity
  constructor
  · intro hden
    have hq := (Rat.den_eq_one_iff _).mp hden
    refine ⟨((n : Rat) / (10 : Rat) ^ k).num, ?_⟩
    have : ((n : Rat) / (10 : Rat) ^ k).num * (10 : Rat) ^ k = (n : Rat) := by
      rw [hq]; field_simp
    have hcast : (((10 : Int) ^ k * ((n : Rat) / (10 : Rat) ^ k).num : Int) : Rat) = (n : Rat) := by
      push_cast
      linarith [this]
    exact_mod_cast hcast.symm
  · rintro ⟨m, rfl⟩
    have : (((10 : Int) ^ k * m : Int) : Rat) / (10 : Rat) ^ k = (m : Rat) := by
      push_cast
      field_simp
    rw [this]
    exact Rat.den_intCast m

theorem div_pow_ten_nonneg_iff (n : Int) (k : Nat) :
    0 ≤ (n : Rat) / (10 : Rat) ^ k ↔ 0 ≤ n := by
  have h10 : (0 : Rat) < (10 : Rat) ^ k := by positivity
  rw [div_nonneg_iff]
  constructor
  · rintro (⟨h1, _⟩ | ⟨_, h2⟩)
    · exact_mod_cast h1
    · have := lt_of_lt_of_le h10 h2
      exact absurd this (lt_irrefl _)
  · intro h
    exact Or.inl ⟨by exact_mod_cast h, le_of_lt h10⟩

/-- `isIntegerGreaterEqual0`, decided on exact parts, agrees with
`Number.isInteger(Number(s)) && Number(s) >= 0` on the rational value of
`jsNumber`. -/
theorem isIntegerGreaterEqual0_iff_jsNumber (s : String) :
    isIntegerGreaterEqual0 s = true ↔
      ∃ q : Rat, jsNumber s = some q ∧ q.den = 1 ∧ 0 ≤ q := by
  unfold isIntegerGreaterEqual0 jsNumber
  cases h : jsNumberParts s with
  | none => simp
  | some p =>
    obtain ⟨n, k⟩ := p
    simp only [Option.map_some']
    constructor
    · intro hb
      simp only [Bool.and_eq_true, decide_eq_true_eq] at hb
      exact ⟨(n : Rat) / (10 : Rat) ^ k, rfl,
        (den_div_pow_ten_eq_one_iff n k).mpr hb.1,
        (div_pow_ten_nonneg_iff n k).mpr hb.2⟩
    · rintro ⟨q, hq, hden, hpos⟩
      obtain rfl : (n : Rat) / (10 : Rat) ^ k = q := by injection hq
      simp only [Bool.and_eq_true, decide_eq_true_eq]
      exact ⟨(den_div_pow_ten_eq_one_iff n k).mp hden,
        (div_pow_ten_nonneg_iff n k).mp hpos⟩

/-! ## C5: the containment check -/

/-- C5.  `isPathContained(pattern, concrete)` is true exactly when every
pattern segment at position `i` equals the concrete segment at `i`
literally or is the wildcard `'*'` with the concrete segment parsing as a
non-negative integer; a pattern shorter than the concrete path matches as
a prefix.  (`createPatch` uses exactly this check, with the exclude
pattern as `fractionPath`, to decide whole-operation exclusion.) -/
theorem isPathContained_iff_specPatternMatches :
    ∀ pattern concrete : List String,
      isPathContained pattern concrete = true ↔ specPatternMatches pattern concrete := by
  intro pattern
  induction pattern with
  | nil =>
    intro concrete
    constructor
    · intro _ i e he
      simp at he
    · intro _
      rfl
  | cons e es ih =>
    intro concrete
    cases concrete with
    | nil =>
      constructor
      · intro h
        simp [isPathContained] at h
      · intro h
        obtain ⟨c, hc, _⟩ := h 0 e rfl
        simp at hc
    | cons c cs =>
      have hstep :
          (entryIsIdentical e c || matchesArrayWildcard e c) = true ↔
            (e = c ∨ (e = ARRAY_INDEX_WILDCARD ∧ isIntegerGreaterEqual0 c = true)) := by
        simp [entryIsIdentical, matchesArrayWildcard, isArrayIndexWildcard]
      constructor
      · intro h
        rw [isPathContained, Bool.and_eq_true] at h
        intro i f hf
        cases i with
        | zero =>
          obtain rfl : e = f := by injection hf
          exact ⟨c, rfl, hstep.mp h.1⟩
        | succ j =>
          exact (ih cs).mp h.2 j f hf
      · intro h
        rw [isPathContained, Bool.and_eq_true]
        constructor
        · obtain ⟨c', hc', hmatch⟩ := h 0 e rfl
          obtain rfl : c = c' := by injection hc'
          exact hstep.mpr hmatch
        · exact (ih cs).mpr (fun j f hf => h (j + 1) f hf)

/-- Witness for C5 at a concrete pattern and path: the wildcard pattern
`/arrayPath/*/property` is contained in `/arrayPath/1/property`. -/
theorem isPathContained_iff_specPatternMatches_witness :
    specPatternMatches ["arrayPath", "*", "property"] ["arrayPath", "1", "property"] :=
  (isPathContained_iff_specPatternMatches _ _).mp rfl

/-! ## C10: what the array wildcard accepts -/

/-- C10.  The wildcard `'*'` matches a concrete segment exactly when the
segment's JavaScript `Number` conversion is an integer `≥ 0` — which
includes `''` (`Number('') === 0`), `'1e2'`, `'0x10'` and `'3.0'`, none
of which is a canonical array-index string — and rejects strings like
`'x'` or `'-1'`. -/
theorem matchesArrayWildcard_jsNumber_quirks :
    (∀ s, matchesArrayWildcard ARRAY_INDEX_WILDCARD s = isIntegerGreaterEqual0 s) ∧
    (∀ s, matchesArrayWildcard ARRAY_INDEX_WILDCARD s = true ↔
      ∃ q : Rat, jsNumber s = some q ∧ q.den = 1 ∧ 0 ≤ q) ∧
    matchesArrayWildcard "*" "" = true ∧ parseArrayIndex "" = none ∧
    matchesArrayWildcard "*" "1e2" = true ∧ parseArrayIndex "1e2" = none ∧
    matchesArrayWildcard "*" "0x10" = true ∧ parseArrayIndex "0x10" = none ∧
    matchesArrayWildcard "*" "3.0" = true ∧ parseArrayIndex "3.0" = none ∧
    matchesArrayWildcard "*" "x" = false ∧ matchesArrayWildcard "*" "-1" = false := by
  refine ⟨fun s => ?_, fun s => ?_, rfl, rfl, rfl, rfl, rfl, rfl, rfl, rfl, rfl, rfl⟩
  · simp [matchesArrayWildcard, isArrayIndexWildcard]
  · rw [show matchesArrayWildcard ARRAY_INDEX_WILDCARD s = isIntegerGreaterEqual0 s by
      simp [matchesArrayWildcard, isArrayIndexWildcard]]
    exact isIntegerGreaterEqual0_iff_jsNumber s

/-! ## C3: rollback to the latest patch -/

/-- C3.  For every non-empty history, `rollback` with the id of the last
(latest) record rejects with `RollbackError('rollback to latest patch')`:
`dropRightWhile` keeps the whole history, so the no-op check fires before
any state is computed or set — the document is never modified (the model
only produces a state on the `.ok` path). -/
theorem rollback_to_latest_rejected :
    ∀ (patches : List PatchRec) (h : patches ≠ []) (data : Json),
      rollback patches (patches.getLast h).id data =
        Except.error RollbackErr.noOpRollback := by
  intro patches h data
  rcases List.eq_nil_or_concat patches with rfl | ⟨l, a, rfl⟩
  · exact absurd rfl h
  · have hlast : (l.concat a).getLast h = a := List.getLast_concat' _
    rw [hlast]
    have hmem : a.id ∈ (l.concat a).map (fun p => p.id) := by
      simp [List.concat_eq_append]
    have hdrop : dropRightWhile (fun p => p.id ≠ a.id) (l.concat a) = l.concat a := by
      unfold dropRightWhile
      rw [List.concat_eq_append, List.reverse_append]
      simp
    rw [rollback]
    rw [if_neg (by simp [List.elem_eq_true_of_mem hmem])]
    rw [hdrop]
    simp

/-- Witness for C3: a concrete two-record history, rolled back to its
second (latest) record. -/
theorem rollback_to_latest_rejected_witness :
    rollback [⟨"p1", [{ op := "add", path := "/title", value := .str "a" }]⟩,
              ⟨"p2", [{ op := "replace", path := "/title", value := .str "z" }]⟩]
        (([⟨"p1", [{ op := "add", path := "/title", value := .str "a" }]⟩,
           ⟨"p2", [{ op := "replace", path := "/title", value := .str "z" }]⟩] :
            List PatchRec).getLast (by simp)).id (.obj []) =
      Except.error RollbackErr.noOpRollback :=
  rollback_to_latest_rejected _ (by simp) _

/-! ## C4: per-element wildcard pruning of a diffed array -/

/-- C4, counterexample.  Diffing the C4 document against the empty prior
and filtering with `/object/array/*/property/hidden` yields one `add`
operation at `/object` — the diff of a document whose only top-level key
is `object` against `{}` is a single add of that whole key — not an add
at `/object/array` as the claim states. -/
theorem wildcard_prune_counterexample :
    (filterOps (jsonpatchCompare (.obj []) c4Doc) c4Excludes).map (fun o => o.path) =
      ["/object"] ∧ "/object" ≠ "/object/array" :=
  ⟨rfl, by simp⟩

/-- C4, amended.  Diffing the C4 document against an empty prior and
filtering with `/object/array/*/property/hidden` yields exactly one `add`
operation at `/object` whose value holds the 3-element array under the
key `array`, all elements present in their original order, with only the
`hidden` keys deleted from elements 0 and 2 (their emptied `property`
objects remain), element 1 untouched; the operation itself survives
because its own top-level value is non-empty. -/
theorem wildcard_prune_amended :
    filterOps (jsonpatchCompare (.obj []) c4Doc) c4Excludes =
      [{ op := "add", path := "/object",
         value := .obj [("array", .arr
           [.obj [("property", .obj [])], c4PlainElem, .obj [("property", .obj [])]])] }] :=
  rfl

/-! ## C6: updates matching nothing produce nothing -/

/-- C6.  When the mutation result reports no matched document and no
upsert (`lastErrorObject.n === 0 && upsertedCount === 0`), both
`postUpdateOne` and `postUpdateMany` return no change records and no
error, whatever the store would answer — the store is never consulted,
so the after-side resolution and diff are skipped entirely. -/
theorem no_match_no_upsert_skips :
    ∀ (result : Option ModifyResult) (ctx1 : UpdateOneCtx) (ctx2 : UpdateManyCtx)
      (opts : PluginOptions)
      (findOne : List (String × Json) → Except String (Option CaptureDoc))
      (find : List (String × Json) → Except String (List CaptureDoc)),
      noMatchNoUpsert result = true →
      postUpdateOne result ctx1 opts findOne = .ok [] ∧
      postUpdateMany result ctx2 opts find = .ok [] := by
  intro result ctx1 ctx2 opts findOne find h
  constructor
  · rw [postUpdateOne, if_pos h]
  · rw [postUpdateMany, if_pos h]

/-- Witness for C6: a concrete no-match/no-upsert result against a store
that would fail if consulted. -/
theorem no_match_no_upsert_skips_witness :
    postUpdateOne (some ⟨some 0, some 0⟩) { conditions := [] } {}
        (fun _ => .error "store failure") = .ok [] ∧
    postUpdateMany (some ⟨some 0, some 0⟩) { conditions := [] } {}
        (fun _ => .error "store failure") = .ok [] :=
  no_match_no_upsert_skips (some ⟨some 0, some 0⟩) { conditions := [] }
    { conditions := [] } {} (fun _ => .error "store failure")
    (fun _ => .error "store failure") rfl

/-! ## C7: batch pairing of resolved documents with captured snapshots -/

/-- C7.  On a non-skipped batch update, whatever list of documents the
store resolves, `postUpdateMany` pairs each resolved document with the
same-position captured prior snapshot (`this._originals?.[i]`) and emits
one record per document with surviving operations; a resolved document
past the end of the captures gets no snapshot — `createPatchRecord` then
diffs it against the empty object (`document._original || {}`) — and
captured snapshots past the end of the resolved list are never read. -/
theorem batch_update_pairing :
    ∀ (result : Option ModifyResult) (ctx : UpdateManyCtx) (opts : PluginOptions)
      (docs : List CaptureDoc),
      noMatchNoUpsert result = false →
      (postUpdateMany result ctx opts (fun _ => .ok docs) =
        .ok (docs.enum.filterMap (fun p =>
          createPatchRecord opts { p.2 with original := ctx.originals.get? p.1 }))) ∧
      (∀ (i : Nat) (doc : CaptureDoc), ctx.originals.length ≤ i →
        createPatchRecord opts { doc with original := ctx.originals.get? i } =
          createPatchRecord opts { doc with original := none }) ∧
      (∀ doc : CaptureDoc, doc.original = none →
        (doc.original.getD (.obj []) : Json) = .obj []) := by
  intro result ctx opts docs h
  refine ⟨?_, ?_, ?_⟩
  · rw [postUpdateMany, if_neg (by simp [h])]
    rfl
  · intro i doc hi
    rw [List.get?_eq_none.mpr hi]
  · intro doc hd
    rw [hd]
    rfl

/-- Witness for C7: two resolved documents against a single capture — the
first (unchanged) produces no record, the second (uncaptured) is diffed
against the empty prior and produces one. -/
theorem batch_update_pairing_witness :
    postUpdateMany (some ⟨some 2, some 0⟩)
        { conditions := [], originalIds := ["d1", "d2"],
          originals := [.obj [("t", .str "x")]] } {}
        (fun _ => .ok [{ id := "d1", data := .obj [("t", .str "x")] },
                       { id := "d2", data := .obj [("t", .str "y")] }]) =
      .ok [{ ref := "d2", ops := [{ op := "add", path := "/t", value := .str "y" }] }] := by
  have h := (batch_update_pairing (some ⟨some 2, some 0⟩)
    { conditions := [], originalIds := ["d1", "d2"],
      originals := [.obj [("t", .str "x")]] } {}
    [{ id := "d1", data := .obj [("t", .str "x")] },
     { id := "d2", data := .obj [("t", .str "y")] }] rfl).1
  rw [h]
  rfl

/-! ## C8: lookup conditions for the upsert-created-new case -/

/-- C8, counterexample.  The source deletes every merged key *containing*
`'$'`, not only update-operator keys: with match conditions
`{ "a$b": 1 }` and no update, the code's lookup conditions are empty,
while conditions merged with (no) field assignments minus update-operator
keys keep `"a$b"`. -/
theorem merge_conditions_counterexample :
    mergeQueryConditionsWithUpdate [("a$b", Json.num 1)] none = [] ∧
    specMergedLookupConditions [("a$b", Json.num 1)] none = [("a$b", Json.num 1)] ∧
    ([] : List (String × Json)) ≠ [("a$b", Json.num 1)] :=
  ⟨rfl, rfl, by simp⟩

/-- C8, amended.  When no prior identity was captured and the update was
not skipped, `postUpdateOne` looks the document up by
`mergeQueryConditionsWithUpdate`, which equals the original match
conditions `Object.assign`-merged with the update's direct field
assignments (the `$set` sub-object when present, per the source's
`_update.$set || _update`), with every key containing a `'$'` anywhere —
update operators and any other `'$'`-containing key, wherever it came
from — removed from the merged result. -/
theorem merge_conditions_amended :
    (∀ conditions update,
      mergeQueryConditionsWithUpdate conditions update =
        (mergeAssignStage conditions update).filter (fun p => !keyHasDollar p.1)) ∧
    (∀ (result : Option ModifyResult) (ctx : UpdateOneCtx) (opts : PluginOptions)
       (findOne : List (String × Json) → Except String (Option CaptureDoc)),
      noMatchNoUpsert result = false → ctx.originalId = none →
      postUpdateOne result ctx opts findOne =
        (findOne (mergeQueryConditionsWithUpdate ctx.conditions ctx.update)).bind
          (fun found =>
            match found with
            | none => .ok []
            | some doc => .ok (createPatchRecord opts { doc with original := ctx.original }).toList)) := by
  constructor
  · intro conditions update
    rfl
  · intro result ctx opts findOne h1 h2
    rw [postUpdateOne, if_neg (by simp [h1]), h2]
    rfl

/-- Witness for C8's amended claim: an upsert-created-new lookup with a
`$set` update; the store resolves the created document and one record is
produced. -/
theorem merge_conditions_amended_witness :
    postUpdateOne (some ⟨some 0, some 1⟩)
        { conditions := [("t", .str "x"), ("$comment", .str "c")],
          update := some (.obj [("$set", .obj [("t", .str "y")])]) } {}
        (fun conds =>
          if conds = [("t", .str "y")] then
            .ok (some { id := "new", data := .obj [("t", .str "y")] })
          else .error "wrong conditions") =
      .ok [{ ref := "new", ops := [{ op := "add", path := "/t", value := .str "y" }] }] := by
  have h := (merge_conditions_amended).2 (some ⟨some 0, some 1⟩)
    { conditions := [("t", .str "x"), ("$comment", .str "c")],
      update := some (.obj [("$set", .obj [("t", .str "y")])]) } {}
    (fun conds =>
      if conds = [("t", .str "y")] then
        .ok (some { id := "new", data := .obj [("t", .str "y")] })
      else .error "wrong conditions") rfl rfl
  rw [h]
  rfl

/-! ## Association-list lemmas for the merge -/

theorem findFieldRaw_setField_ne (d : List (String × Json)) (key k : String)
    (v : Json) (h : k ≠ key) : findFieldRaw (setField d key v) k = findFieldRaw d k := by
  induction d with
  | nil => rfl
  | cons p t ih =>
    obtain ⟨k', v'⟩ := p
    by_cases hk : k' = key
    · subst hk
      rw [setField, if_pos rfl, findFieldRaw, findFieldRaw,
        if_neg (fun hh => h hh.symm), if_neg (fun hh => h hh.symm)]
    · rw [setField, if_neg hk, findFieldRaw, findFieldRaw]
      by_cases hk2 : k' = k
      · rw [if_pos hk2, if_pos hk2]
      · rw [if_neg hk2, if_neg hk2, ih]

theorem findFieldRaw_setField_self (d : List (String × Json)) (key : String)
    (v : Json) (h : (findFieldRaw d key).isSome) :
    findFieldRaw (setField d key v) key = some v := by
  induction d with
  | nil => simp [findFieldRaw] at h
  | cons p t ih =>
    obtain ⟨k', v'⟩ := p
    by_cases hk : k' = key
    · rw [setField, if_pos hk, findFieldRaw, if_pos hk]
    · rw [findFieldRaw, if_neg hk] at h
      rw [setField, if_neg hk, findFieldRaw, if_neg hk, ih h]

theorem findFieldRaw_append_ne (d : List (String × Json)) (key k : String)
    (v : Json) (h : k ≠ key) : findFieldRaw (d ++ [(key, v)]) k = findFieldRaw d k := by
  induction d with
  | nil =>
    simp only [List.nil_append, findFieldRaw]
    rw [if_neg (fun hh => h hh.symm)]
  | cons p t ih =>
    obtain ⟨k', v'⟩ := p
    rw [List.cons_append, findFieldRaw, findFieldRaw]
    by_cases hk2 : k' = k
    · rw [if_pos hk2, if_pos hk2]
    · rw [if_neg hk2, if_neg hk2, ih]

theorem findFieldRaw_append_self (d : List (String × Json)) (key : String)
    (v : Json) (h : findFieldRaw d key = none) :
    findFieldRaw (d ++ [(key, v)]) key = some v := by
  induction d with
  | nil => rw [List.nil_append, findFieldRaw, if_pos rfl]
  | cons p t ih =>
    obtain ⟨k', v'⟩ := p
    rw [findFieldRaw] at h
    by_cases hk : k' = key
    · rw [if_pos hk] at h
      exact absurd h (by simp)
    · rw [if_neg hk] at h
      rw [List.cons_append, findFieldRaw, if_neg hk, ih h]

/-- `mergeFields` leaves keys that the source object does not mention
untouched. -/
theorem mergeFields_stable (s : List (String × Json)) :
    ∀ (d : List (String × Json)) (k : String), k ∉ s.map Prod.fst →
      findFieldRaw (mergeFields d s) k = findFieldRaw d k := by
  induction s with
  | nil => intro d k _; rfl
  | cons p rest ih =>
    intro d k hk
    obtain ⟨key, sv⟩ := p
    simp only [List.map_cons, List.mem_cons] at hk
    push_neg at hk
    rw [mergeFields]
    rw [ih _ k hk.2]
    by_cases hf : (findFieldRaw d key).isSome = true
    · rw [if_pos hf]
      exact findFieldRaw_setField_ne d key k _ hk.1
    · rw [if_neg hf]
      exact findFieldRaw_append_ne d key k _ hk.1

/-- In `merge(data, state)` the state's entries win: a key the state
carries maps, in the merged result, to the state's value — deep-merged
into the overrides' value when the overrides also carry the key. -/
theorem mergeFields_find (s : List (String × Json)) :
    ∀ (d : List (String × Json)) (k : String) (sv : Json),
      (s.map Prod.fst).Nodup → findFieldRaw s k = some sv →
      findFieldRaw (mergeFields d s) k =
        some ((findFieldRaw d k).elim sv (fun dv => jsonMerge dv sv)) := by
  induction s with
  | nil => intro d k sv _ h; simp [findFieldRaw] at h
  | cons p rest ih =>
    intro d k sv hn hfind
    obtain ⟨key, sv'⟩ := p
    simp only [List.map_cons, List.nodup_cons] at hn
    rw [mergeFields]
    by_cases hk : key = k
    · subst hk
      rw [findFieldRaw, if_pos rfl] at hfind
      obtain rfl : sv' = sv := by injection hfind
      rw [mergeFields_stable rest _ key hn.1]
      by_cases hf : (findFieldRaw d key).isSome = true
      · obtain ⟨dv, hdv⟩ := Option.isSome_iff_exists.mp hf
        rw [if_pos hf, hdv, findFieldRaw_setField_self d key _ hf]
        rfl
      · rw [if_neg hf]
        rw [Option.not_isSome_iff_eq_none] at hf
        rw [hf, findFieldRaw_append_self d key _ hf]
        rfl
    · rw [findFieldRaw, if_neg hk] at hfind
      rw [ih _ k sv hn.2 hfind]
      by_cases hf : (findFieldRaw d key).isSome = true
      · rw [if_pos hf]
        rw [findFieldRaw_setField_ne d key k _ (fun hh => hk hh.symm)]
      · rw [if_neg hf]
        rw [findFieldRaw_append_ne d key k _ (fun hh => hk hh.symm)]

/-! ## C1: rollback merges the reconstructed state over the overrides -/

/-- C1, counterexample.  Rolling a two-record history back to its first
patch with the caller override `{title: "b"}`: the claim says the
override wins on the colliding key `title`, but the document is set to
`{title: "a"}` — the reconstructed state's value — because the source
runs `merge(data, state)`, in which `state` is the lodash-merge *source*
and sources win. -/
theorem rollback_override_counterexample :
    rollback [⟨"p1", [{ op := "add", path := "/title", value := .str "a" }]⟩,
              ⟨"p2", [{ op := "replace", path := "/title", value := .str "z" }]⟩]
        "p1" (.obj [("title", .str "b")]) = .ok (.obj [("title", .str "a")]) ∧
    Json.str "a" ≠ Json.str "b" :=
  ⟨rfl, by simp⟩

/-- C1, amended.  For every history, target id and overrides object,
`rollback` sets the document to `merge(overrides, state)` where `state`
is the reconstructed prefix state — and in that merge the *state* wins on
key collision (deep-merging the two values when the overrides also carry
the key); override keys absent from the state survive.  The merged value
is what `this.set(...)` receives as the document's live state. -/
theorem rollback_merges_state_over_overrides :
    (∀ (patches : List PatchRec) (patchId : String) (data : Json),
      rollback patches patchId data =
        (reconstructState patches patchId).map (fun state => jsonMerge data state)) ∧
    (∀ (d s : List (String × Json)) (k : String) (sv : Json),
      (s.map Prod.fst).Nodup → findFieldRaw s k = some sv →
      findFieldRaw (mergeFields d s) k =
        some ((findFieldRaw d k).elim sv (fun dv => jsonMerge dv sv))) := by
  constructor
  · intro patches patchId data
    rw [rollback, reconstructState]
    split
    · rfl
    · dsimp only
      split
      · rfl
      · rfl
  · exact fun d s k sv hn h => mergeFields_find s d k sv hn h

/-- Witness for C1's amended claim: the state value `"a"` wins over the
override value `"b"` for the colliding key `title`. -/
theorem rollback_merges_state_over_overrides_witness :
    findFieldRaw (mergeFields [("title", Json.str "b")] [("title", Json.str "a")]) "title" =
      some (Json.str "a") := by
  have h := rollback_merges_state_over_overrides.2 [("title", Json.str "b")]
    [("title", Json.str "a")] "title" (Json.str "a") (by simp) rfl
  simpa using h

/-! ## C2: which prefix rollback replays -/

theorem dropWhile_append_of_forall {α : Type} (p : α → Bool) :
    ∀ (xs ys : List α), (∀ x ∈ xs, p x = true) →
      List.dropWhile p (xs ++ ys) = List.dropWhile p ys := by
  intro xs
  induction xs with
  | nil => intro ys _; rfl
  | cons a t ih =>
    intro ys h
    rw [List.cons_append, List.dropWhile_cons, if_pos (h a (by simp))]
    exact ih ys (fun x hx => h x (by simp [hx]))

/-- With pairwise-distinct record ids, `dropRightWhile (id ≠ target)`
selects exactly the records up to and including the target's position. -/
theorem dropRightWhile_take (patches : List PatchRec) (i : Nat)
    (hn : (patches.map (fun p => p.id)).Nodup) (hi : i < patches.length) :
    dropRightWhile (fun p => p.id ≠ (patches.get ⟨i, hi⟩).id) patches =
      patches.take (i + 1) := by
  unfold dropRightWhile
  have htake : patches.take (i + 1) = patches.take i ++ [patches.get ⟨i, hi⟩] := by
    rw [List.take_succ, List.getElem?_eq_getElem hi]
    rfl
  have hrev : patches.reverse =
      (patches.drop (i + 1)).reverse ++
        (patches.get ⟨i, hi⟩ :: (patches.take i).reverse) := by
    calc patches.reverse
        = (patches.take (i + 1) ++ patches.drop (i + 1)).reverse := by
          rw [List.take_append_drop]
      _ = (patches.drop (i + 1)).reverse ++ (patches.take (i + 1)).reverse :=
          List.reverse_append _ _
      _ = (patches.drop (i + 1)).reverse ++
            (patches.get ⟨i, hi⟩ :: (patches.take i).reverse) := by
          rw [htake, List.reverse_append]
          rfl
  have hall : ∀ x ∈ (patches.drop (i + 1)).reverse,
      (fun p => (p.id ≠ (patches.get ⟨i, hi⟩).id : Bool)) x = true := by
    intro x hx
    rw [List.mem_reverse] at hx
    obtain ⟨⟨j, hj⟩, hxj⟩ := List.mem_iff_get.mp hx
    have hjlen : i + 1 + j < patches.length := by
      have := hj
      simp [List.length_drop] at this
      omega
    have hxeq : x = patches.get ⟨i + 1 + j, hjlen⟩ := by
      rw [← hxj]
      simp [List.get_drop]
    simp only [decide_eq_true_eq]
    intro hid
    have hmapi : (patches.map (fun p => p.id)).get
        ⟨i + 1 + j, by simp [List.length_map]; omega⟩ =
        (patches.map (fun p => p.id)).get ⟨i, by simp [List.length_map]; omega⟩ := by
      simp only [List.get_map]
      rw [← hxeq, hid]
    have := (List.Nodup.get_inj_iff hn).mp hmapi
    simp at this
    omega
  rw [hrev, dropWhile_append_of_forall _ _ _ hall, List.dropWhile_cons]
  rw [if_neg (by simp)]
  rw [List.reverse_cons, List.reverse_reverse, ← htake]

/-- C2, counterexample.  On a single-record history (`i = 0 < len(H)`),
`rollback(H, H[0].id)` rejects with `NoOpRollback` instead of
reconstructing `H[0]`'s state: the position `i = len(H) - 1` the claim
also quantifies over is exactly the rollback-to-latest case. -/
theorem rollback_last_index_counterexample :
    rollback [⟨"p1", [{ op := "add", path := "/title", value := .str "a" }]⟩] "p1"
        (.obj []) = Except.error RollbackErr.noOpRollback ∧
    applyRecords [⟨"p1", [{ op := "add", path := "/title", value := .str "a" }]⟩] =
      .ok (.obj [("title", .str "a")]) :=
  ⟨rfl, rfl⟩

/-- C2, amended.  For every history with pairwise-distinct record ids and
every *non-final* index `i` (`i + 1 < len(H)`), `rollback(H, H[i].id)`
replays exactly the records `H[0..i]`, in order, onto the empty state —
each record's operations applied by `jsonpatch.applyPatch` semantics,
with a failed `test` or invalid operation aborting the whole replay —
and then merges the caller's overrides under the reconstructed state. -/
theorem rollback_replays_strict_prefix :
    ∀ (patches : List PatchRec) (i : Nat) (data : Json)
      (hn : (patches.map (fun p => p.id)).Nodup) (hi : i + 1 < patches.length),
      rollback patches (patches.get ⟨i, by omega⟩).id data =
        (applyRecords (patches.take (i + 1))).map (fun state => jsonMerge data state) := by
  intro patches i data hn hi
  have hi' : i < patches.length := by omega
  have hmem : (patches.get ⟨i, hi'⟩).id ∈ patches.map (fun p => p.id) :=
    List.mem_map_of_mem _ (patches.get_mem i hi')
  have hc : ((patches.map (fun p => p.id)).contains (patches.get ⟨i, hi'⟩).id) = true :=
    List.elem_eq_true_of_mem hmem
  rw [rollback, if_neg (by rw [hc]; simp)]
  dsimp only
  rw [dropRightWhile_take patches i hn hi']
  rw [if_neg (by simp [List.length_take]; omega)]

/-- Witness for C2's amended claim: a two-record history with distinct
ids rolled back to its first record reconstructs that record's state. -/
theorem rollback_replays_strict_prefix_witness :
    rollback [⟨"p1", [{ op := "add", path := "/title", value := .str "a" }]⟩,
              ⟨"p2", [{ op := "replace", path := "/title", value := .str "z" }]⟩]
        "p1" (.obj []) = .ok (.obj [("title", .str "a")]) := by
  have h := rollback_replays_strict_prefix
    [⟨"p1", [{ op := "add", path := "/title", value := .str "a" }]⟩,
     ⟨"p2", [{ op := "replace", path := "/title", value := .str "z" }]⟩]
    0 (.obj []) (by simp) (by simp)
  exact h.trans rfl

/-! ## C9 groundwork: list lemmas -/

theorem mapSelf {α : Type} (f : α → α) :
    ∀ (l : List α), (∀ x ∈ l, f x = x) → l.map f = l := by
  intro l
  induction l with
  | nil => intro _; rfl
  | cons a t ih =>
    intro h
    rw [List.map_cons, h a (by simp), ih (fun x hx => h x (by simp [hx]))]

theorem mapSelfInv {α : Type} (f : α → α) :
    ∀ (l : List α), l.map f = l → ∀ x ∈ l, f x = x := by
  intro l
  induction l with
  | nil => intro _ x hx; simp at hx
  | cons a t ih =>
    intro h x hx
    rw [List.map_cons] at h
    injection h with h1 h2
    rw [List.mem_cons] at hx
    rcases hx with rfl | hx
    · exact h1
    · exact ih h2 x hx

theorem setSelf {α : Type} : ∀ (l : List α) (i : Nat) (a : α),
    l[i]? = some a → l.set i a = l := by
  intro l
  induction l with
  | nil => intro i a h; simp at h
  | cons b t ih =>
    intro i a h
    cases i with
    | zero =>
      simp at h
      rw [List.set, h]
    | succ j =>
      simp at h
      rw [List.set, ih j a (by simpa using h)]

theorem filterShorter {α : Type} (q : α → Bool) :
    ∀ (l : List α) (x : α), x ∈ l → q x = false → (l.filter q).length < l.length := by
  intro l
  induction l with
  | nil => intro x hx; simp at hx
  | cons a t ih =>
    intro x hx hq
    rw [List.mem_cons] at hx
    rcases hx with rfl | hx
    · rw [List.filter_cons, hq]
      have := List.length_filter_le q t
      simp
      omega
    · rw [List.filter_cons]
      cases hqa : q a
      · have := List.length_filter_le q t
        simp
        omega
      · have := ih x hx hq
        simp
        omega

theorem findFilterImp {α : Type} (pr q : α → Bool) (h : ∀ x, pr x = true → q x = true) :
    ∀ (l : List α), (l.filter q).find? pr = l.find? pr := by
  intro l
  induction l with
  | nil => rfl
  | cons a t ih =>
    rw [List.filter_cons]
    cases hpr : pr a
    · cases hq : q a
      · rw [if_neg (by simp [hq]), List.find?_cons_of_neg _ (by simp [hpr]), ih]
      · rw [if_pos (by simp [hq]), List.find?_cons_of_neg _ (by simp [hpr]),
          List.find?_cons_of_neg _ (by simp [hpr]), ih]
    · rw [if_pos (by simp [h a hpr]), List.find?_cons_of_pos _ (by simp [hpr]),
        List.find?_cons_of_pos _ (by simp [hpr])]

/-! ## C9 groundwork: property access vs. delete/set -/

theorem parseArrayIndex_canonical {s : String} {i : Nat}
    (h : parseArrayIndex s = some i) : natToString i = s := by
  unfold parseArrayIndex at h
  cases hd : digitsVal s with
  | none => simp [hd] at h
  | some n =>
    simp only [hd] at h
    by_cases hc : natToString n = s
    · rw [if_pos hc] at h
      obtain rfl : n = i := by injection h
      exact hc
    · rw [if_neg hc] at h
      exact absurd h (by simp)

theorem parseArrayIndex_inj {a b : String} {i : Nat}
    (ha : parseArrayIndex a = some i) (hb : parseArrayIndex b = some i) : a = b := by
  rw [← parseArrayIndex_canonical ha, ← parseArrayIndex_canonical hb]

theorem jsonGet_delete_self (v : Json) (k : String) :
    jsonGet (jsonDelete v k) k = none := by
  cases v with
  | obj fields =>
    simp only [jsonDelete, jsonGet]
    have hfind : (fields.filter (fun p => p.1 ≠ k)).find? (fun p => p.1 = k) = none := by
      rw [List.find?_eq_none]
      intro p hp
      rw [List.mem_filter] at hp
      simpa using hp.2
    rw [hfind]
  | arr elems =>
    simp only [jsonDelete, jsonGet]
    cases hp : parseArrayIndex k with
    | none => simp [hp]
    | some i =>
      simp only [hp, List.get?_eq_getElem?]
      by_cases hlen : i < elems.length
      · rw [List.getElem?_set_self (by simpa using hlen)]
        simp
      · rw [List.getElem?_eq_none (by simp; omega)]
  | undef => rfl
  | null => rfl
  | bool b => rfl
  | num q => rfl
  | str s => rfl

theorem jsonGet_delete_ne (v : Json) (k k' : String) (h : k ≠ k') :
    jsonGet (jsonDelete v k') k = jsonGet v k := by
  cases v with
  | obj fields =>
    simp only [jsonDelete, jsonGet]
    rw [findFilterImp (fun p => (p.1 = k : Bool)) (fun p => (p.1 ≠ k' : Bool))
      (fun p hp => by simp at hp ⊢; rw [hp]; exact h) fields]
  | arr elems =>
    simp only [jsonDelete, jsonGet]
    cases hp' : parseArrayIndex k' with
    | none => rfl
    | some j =>
      simp only [hp']
      cases hp : parseArrayIndex k with
      | none => simp [hp]
      | some i =>
        have hij : i ≠ j := fun he => h (parseArrayIndex_inj hp (he ▸ hp'))
        simp only [hp, List.get?_eq_getElem?]
        rw [List.getElem?_set_ne (fun he => hij he.symm)]
  | undef => rfl
  | null => rfl
  | bool b => rfl
  | num q => rfl
  | str s => rfl

theorem jsonGet_set_ne (v : Json) (seg k : String) (c : Json) (h : k ≠ seg) :
    jsonGet (jsonSet v seg c) k = jsonGet v k := by
  cases v with
  | obj fields =>
    simp only [jsonSet, jsonGet]
    have hfst : ∀ p : String × Json, (if p.1 = seg then (p.1, c) else p).1 = p.1 :=
      fun p => by split <;> rfl
    have hmap : (fields.map (fun p => if p.1 = seg then (p.1, c) else p)).find?
        (fun p => (p.1 = k : Bool)) =
        (fields.find? (fun p => (p.1 = k : Bool))).map
          (fun p => if p.1 = seg then (p.1, c) else p) := by
      induction fields with
      | nil => rfl
      | cons p t ih =>
        by_cases hp : p.1 = k
        · rw [List.map_cons, List.find?_cons_of_pos _ (by simp only [hfst p]; simpa using hp),
            List.find?_cons_of_pos _ (by simpa using hp)]
          rfl
        · rw [List.map_cons, List.find?_cons_of_neg _ (by simp only [hfst p]; simpa using hp),
            List.find?_cons_of_neg _ (by simpa using hp), ih]
    rw [hmap]
    cases hf : fields.find? (fun p => (p.1 = k : Bool)) with
    | none => rfl
    | some p =>
      have hpk : p.1 = k := by simpa using List.find?_some hf
      rw [Option.map_some', if_neg (by rw [hpk]; exact fun hh => h hh)]
  | arr elems =>
    simp only [jsonSet]
    cases hp' : parseArrayIndex seg with
    | none => rfl
    | some j =>
      simp only [jsonGet]
      cases hp : parseArrayIndex k with
      | none => simp [hp]
      | some i =>
        have hij : i ≠ j := fun he => h (parseArrayIndex_inj hp (he ▸ hp'))
        simp only [hp, List.get?_eq_getElem?]
        rw [List.getElem?_set_ne (fun he => hij he.symm)]
  | undef => rfl
  | null => rfl
  | bool b => rfl
  | num q => rfl
  | str s => rfl

theorem jsonGet_set_self (v : Json) (seg : String) (c child : Json)
    (hget : jsonGet v seg = some child) (hc : ¬ c = .undef) :
    jsonGet (jsonSet v seg c) seg = some c := by
  cases v with
  | obj fields =>
    simp only [jsonGet] at hget
    simp only [jsonSet, jsonGet]
    have hfst : ∀ p : String × Json, (if p.1 = seg then (p.1, c) else p).1 = p.1 :=
      fun p => by split <;> rfl
    induction fields with
    | nil => simp [List.find?] at hget
    | cons p t ih =>
      by_cases hp : p.1 = seg
      · rw [List.map_cons, List.find?_cons_of_pos _ (by simp only [hfst p]; simpa using hp)]
        dsimp only
        rw [if_pos hp]
        simp [hc]
      · rw [List.find?_cons_of_neg _ (by simpa using hp)] at hget
        rw [List.map_cons, List.find?_cons_of_neg _ (by simp only [hfst p]; simpa using hp)]
        exact ih hget
  | arr elems =>
    simp only [jsonGet, List.get?_eq_getElem?] at hget
    simp only [jsonSet]
    cases hp : parseArrayIndex seg with
    | none => simp [hp] at hget
    | some i =>
      simp only [hp] at hget
      cases he : elems[i]? with
      | none => simp [he] at hget
      | some e =>
        have hlen : i < elems.length := by
          by_contra hcon
          rw [List.getElem?_eq_none (by omega)] at he
          exact absurd he (by simp)
        simp only [hp, jsonGet, List.get?_eq_getElem?]
        rw [List.getElem?_set_self (by simpa using hlen)]
        simp [hc]
  | undef => simp [jsonGet] at hget
  | null => simp [jsonGet] at hget
  | bool b => simp [jsonGet] at hget
  | num q => simp [jsonGet] at hget
  | str s => simp [jsonGet] at hget

theorem jsonSet_jsonSet (v : Json) (k : String) (a b : Json) :
    jsonSet (jsonSet v k a) k b = jsonSet v k b := by
  cases v with
  | obj fields =>
    simp only [jsonSet, List.map_map]
    congr 1
    apply List.map_congr_left
    intro p _
    by_cases hp : p.1 = k
    · simp [hp]
    · simp [hp]
  | arr elems =>
    simp only [jsonSet]
    cases hp : parseArrayIndex k with
    | none => simp [hp]
    | some i => simp [hp, List.set_set]
  | undef => rfl
  | null => rfl
  | bool b' => rfl
  | num q => rfl
  | str s => rfl

theorem jsonDelete_ne_of_get (v : Json) (k : String) (e : Json)
    (h : jsonGet v k = some e) : jsonDelete v k ≠ v := by
  cases v with
  | obj fields =>
    simp only [jsonGet] at h
    cases hf : fields.find? (fun p => (p.1 = k : Bool)) with
    | none => simp [hf] at h
    | some p =>
      have hpk : p.1 = k := by simpa using List.find?_some hf
      have hpm : p ∈ fields := List.mem_of_find?_eq_some hf
      have hlt : (fields.filter (fun q => (q.1 ≠ k : Bool))).length < fields.length :=
        filterShorter _ fields p hpm (by simp [hpk])
      simp only [jsonDelete]
      intro hcon
      injection hcon with hcon
      rw [hcon] at hlt
      omega
  | arr elems =>
    simp only [jsonGet, List.get?_eq_getElem?] at h
    cases hp : parseArrayIndex k with
    | none => simp [hp] at h
    | some i =>
      simp only [hp] at h
      cases he : elems[i]? with
      | none => simp [he] at h
      | some el =>
        simp only [he] at h
        have hel : ¬ el = .undef := by
          intro hcon
          rw [if_pos hcon] at h
          exact absurd h (by simp)
        have hlen : i < elems.length := by
          by_contra hcon
          rw [List.getElem?_eq_none (by omega)] at he
          exact absurd he (by simp)
        simp only [jsonDelete, hp]
        intro hcon
        injection hcon with hcon
        have h2 : (elems.set i Json.undef)[i]? = elems[i]? := by rw [hcon]
        rw [List.getElem?_set_self (by simpa using hlen), he] at h2
        have : Json.undef = el := by injection h2
        exact hel this.symm
  | undef => simp [jsonGet] at h
  | null => simp [jsonGet] at h
  | bool b => simp [jsonGet] at h
  | num q => simp [jsonGet] at h
  | str s => simp [jsonGet] at h

/-! ## C9 groundwork: shape and no-action facts about the walk -/

theorem ctorIdx_jsonDelete (v : Json) (k : String) :
    (jsonDelete v k).ctorIdx = v.ctorIdx := by
  cases v with
  | arr elems =>
    rw [jsonDelete]
    cases parseArrayIndex k <;> rfl
  | obj fields => rfl
  | undef => rfl
  | null => rfl
  | bool b => rfl
  | num q => rfl
  | str s => rfl

theorem ctorIdx_jsonSet (v : Json) (k : String) (c : Json) :
    (jsonSet v k c).ctorIdx = v.ctorIdx := by
  cases v with
  | arr elems =>
    rw [jsonSet]
    cases parseArrayIndex k <;> rfl
  | obj fields => rfl
  | undef => rfl
  | null => rfl
  | bool b => rfl
  | num q => rfl
  | str s => rfl

theorem ctorIdx_walkPrune (v : Json) (m : List String) (k : String) :
    ((walkPrune v m k).1).ctorIdx = v.ctorIdx := by
  cases m with
  | nil =>
    rw [walkPrune]
    cases jsonGet v k
    · rfl
    · exact ctorIdx_jsonDelete v k
  | cons seg rest =>
    rw [walkPrune]
    by_cases hw : (seg == ARRAY_INDEX_WILDCARD && v.isArr) = true
    · rw [if_pos hw]
      rw [Bool.and_eq_true] at hw
      obtain ⟨es, rfl⟩ : ∃ es, v = .arr es := by
        have harr := hw.2
        cases v <;> simp_all [Json.isArr]
      rfl
    · rw [if_neg hw]
      cases hg : jsonGet v seg with
      | none => rfl
      | some child =>
        dsimp only
        by_cases hr : (walkPrune child rest k).2 = true
        · rw [if_pos hr]
          exact ctorIdx_jsonSet v seg _
        · rw [if_neg hr]

theorem isArr_eq_of_ctorIdx {a b : Json} (h : a.ctorIdx = b.ctorIdx) :
    a.isArr = b.isArr := by
  cases a <;> cases b <;> simp_all [Json.ctorIdx, Json.isArr]

theorem obj_of_ctorIdx {a : Json} {l : List (String × Json)}
    (h : a.ctorIdx = (Json.obj l).ctorIdx) : ∃ l', a = .obj l' := by
  cases a <;> simp_all [Json.ctorIdx]

theorem arr_of_ctorIdx {a : Json} {es : List Json}
    (h : a.ctorIdx = (Json.arr es).ctorIdx) : ∃ es', a = .arr es' := by
  cases a <;> simp_all [Json.ctorIdx]

theorem undef_iff_ctorIdx {a b : Json} (h : a.ctorIdx = b.ctorIdx) :
    a = .undef ↔ b = .undef := by
  cases a <;> cases b <;> simp_all [Json.ctorIdx]

/-- A walk that did not act leaves the value untouched. -/
theorem walkPrune_of_not_acted (v : Json) (m : List String) (k : String)
    (h : (walkPrune v m k).2 = false) : (walkPrune v m k).1 = v := by
  cases m with
  | nil =>
    rw [walkPrune] at h ⊢
    cases hx : jsonGet v k
    · rfl
    · rw [hx] at h
      exact Bool.noConfusion h
  | cons seg rest =>
    rw [walkPrune] at h ⊢
    by_cases hw : (seg == ARRAY_INDEX_WILDCARD && v.isArr) = true
    · rw [if_pos hw] at h
      exact Bool.noConfusion h
    · rw [if_neg hw] at h ⊢
      cases hg : jsonGet v seg with
      | none => rfl
      | some child =>
        simp only [hg] at h ⊢
        simp [h]

/-- The walk acts on no primitive value. -/
theorem walkPrune_not_container (v : Json) (m : List String) (k : String)
    (h : v.isContainer = false) : walkPrune v m k = (v, false) := by
  have hget : ∀ k', jsonGet v k' = none := by
    intro k'
    cases v with
    | arr elems => simp [Json.isContainer] at h
    | obj fields => simp [Json.isContainer] at h
    | undef => rfl
    | null => rfl
    | bool b => rfl
    | num q => rfl
    | str s => rfl
  have harr : v.isArr = false := by
    cases v with
    | arr elems => simp [Json.isContainer] at h
    | obj fields => rfl
    | undef => rfl
    | null => rfl
    | bool b => rfl
    | num q => rfl
    | str s => rfl
  cases m with
  | nil =>
    rw [walkPrune, hget k]
  | cons seg rest =>
    rw [walkPrune, if_neg (by simp [harr]), hget seg]

theorem objSetSelfImp (s : String) (x child : Json) :
    ∀ (fields : List (String × Json)),
      jsonGet (.obj fields) s = some child →
      (fields.map (fun p => if p.1 = s then (p.1, x) else p)) = fields →
      x = child := by
  intro fields
  induction fields with
  | nil => intro hget _; simp [jsonGet, List.find?] at hget
  | cons p t ih =>
    intro hget hmap
    rw [List.map_cons] at hmap
    injection hmap with h1 h2
    by_cases hp : p.1 = s
    · have hfind : List.find? (fun q => decide (q.1 = s)) (p :: t) = some p :=
        List.find?_cons_of_pos _ (by simpa using hp)
      have hget2 : (if p.2 = Json.undef then none else some p.2) = some child := by
        simpa [jsonGet, hfind] using hget
      rw [if_pos hp] at h1
      have hx : x = p.2 := congrArg Prod.snd h1
      by_cases hu : p.2 = Json.undef
      · rw [if_pos hu] at hget2
        exact absurd hget2 (by simp)
      · rw [if_neg hu] at hget2
        have h3 : p.2 = child := by injection hget2
        rw [hx, h3]
    · have hfind : List.find? (fun q => decide (q.1 = s)) (p :: t) =
          List.find? (fun q => decide (q.1 = s)) t :=
        List.find?_cons_of_neg _ (by simpa using hp)
      have hget' : jsonGet (.obj t) s = some child := by
        simpa [jsonGet, hfind] using hget
      exact ih hget' h2

theorem jsonSet_eq_self_imp {v : Json} {s : String} {child x : Json}
    (hget : jsonGet v s = some child) (hset : jsonSet v s x = v) : x = child := by
  cases v with
  | obj fields =>
    simp only [jsonSet] at hset
    injection hset with hset
    exact objSetSelfImp s x child fields hget hset
  | arr elems =>
    simp only [jsonGet, List.get?_eq_getElem?] at hget
    simp only [jsonSet] at hset
    cases hp : parseArrayIndex s with
    | none => simp [hp] at hget
    | some i =>
      simp only [hp] at hget hset
      cases he : elems[i]? with
      | none => simp [he] at hget
      | some e =>
        simp only [he] at hget
        by_cases hu : e = Json.undef
        · rw [if_pos hu] at hget
          exact absurd hget (by simp)
        · rw [if_neg hu] at hget
          have hec : e = child := by injection hget
          injection hset with hset
          have hlen : i < elems.length := by
            by_contra hc
            rw [List.getElem?_eq_none (by omega)] at he
            exact absurd he (by simp)
          have h2 : (elems.set i x)[i]? = elems[i]? := by rw [hset]
          rw [List.getElem?_set_self (by simpa using hlen), he] at h2
          have hxe : x = e := by injection h2
          rw [hxe, hec]
  | undef => simp [jsonGet] at hget
  | null => simp [jsonGet] at hget
  | bool b => simp [jsonGet] at hget
  | num q => simp [jsonGet] at hget
  | str s' => simp [jsonGet] at hget

theorem jsonSet_comm (v : Json) (s₁ s₂ : String) (c₁ c₂ : Json) (h : s₁ ≠ s₂) :
    jsonSet (jsonSet v s₂ c₂) s₁ c₁ = jsonSet (jsonSet v s₁ c₁) s₂ c₂ := by
  cases v with
  | obj fields =>
    simp only [jsonSet, List.map_map]
    congr 1
    apply List.map_congr_left
    intro p _
    by_cases h2 : p.1 = s₂ <;> by_cases h1 : p.1 = s₁
    · exact absurd (by rw [← h1, h2]) h
    · simp [Function.comp, h1, h2, h, Ne.symm h]
    · simp [Function.comp, h1, h2, h, Ne.symm h]
    · simp [Function.comp, h1, h2, h, Ne.symm h]
  | arr elems =>
    cases hp2 : parseArrayIndex s₂ with
    | none =>
      cases hp1 : parseArrayIndex s₁ with
      | none => simp [jsonSet, hp1, hp2]
      | some i => simp [jsonSet, hp1, hp2]
    | some j =>
      cases hp1 : parseArrayIndex s₁ with
      | none => simp [jsonSet, hp1, hp2]
      | some i =>
        have hij : i ≠ j := fun he => h (parseArrayIndex_inj hp1 (he ▸ hp2))
        simp only [jsonSet, hp1, hp2]
        rw [List.set_comm _ _ _ (fun he => hij he.symm)]
  | undef => rfl
  | null => rfl
  | bool b => rfl
  | num q => rfl
  | str s' => rfl

theorem jsonSet_delete_comm (v : Json) (s k : String) (x : Json) (h : s ≠ k) :
    jsonSet (jsonDelete v k) s x = jsonDelete (jsonSet v s x) k := by
  cases v with
  | obj fields =>
    simp only [jsonDelete, jsonSet]
    congr 1
    rw [List.filter_map]
    congr 1
    apply List.filter_congr
    intro p _
    by_cases hs : p.1 = s
    · simp [Function.comp, hs]
    · simp [Function.comp, hs]
  | arr elems =>
    cases hpk : parseArrayIndex k with
    | none =>
      cases hps : parseArrayIndex s with
      | none => simp [jsonDelete, jsonSet, hpk, hps]
      | some j => simp [jsonDelete, jsonSet, hpk, hps]
    | some i =>
      cases hps : parseArrayIndex s with
      | none => simp [jsonDelete, jsonSet, hpk, hps]
      | some j =>
        have hij : j ≠ i := fun he => h (parseArrayIndex_inj hps (he ▸ hpk))
        simp only [jsonDelete, jsonSet, hpk, hps]
        rw [List.set_comm _ _ _ hij]
  | undef => rfl
  | null => rfl
  | bool b => rfl
  | num q => rfl
  | str s' => rfl

theorem walkPrune_ne_undef {e : Json} (m : List String) (k : String)
    (h : ¬ e = Json.undef) : ¬ (walkPrune e m k).1 = Json.undef :=
  fun hc => h ((undef_iff_ctorIdx (ctorIdx_walkPrune e m k)).mp hc)

theorem memSetOr {α : Type} (b : α) :
    ∀ (l : List α) (i : Nat) (a : α), a ∈ l.set i b → a ∈ l ∨ a = b := by
  intro l
  induction l with
  | nil => intro i a h; simp at h
  | cons c t ih =>
    intro i a h
    cases i with
    | zero =>
      rw [List.set] at h
      rw [List.mem_cons] at h
      rcases h with rfl | h
      · exact Or.inr rfl
      · exact Or.inl (by simp [h])
    | succ j =>
      rw [List.set] at h
      rw [List.mem_cons] at h
      rcases h with rfl | h
      · exact Or.inl (by simp)
      · rcases ih j a h with h' | h'
        · exact Or.inl (by simp [h'])
        · exact Or.inr h'

theorem clean_nil (v : Json) (k : String) :
    (walkPrune v [] k).1 = v ↔ jsonGet v k = none := by
  constructor
  · intro h
    cases hg : jsonGet v k with
    | none => rfl
    | some e =>
      rw [walkPrune] at h
      simp only [hg] at h
      exact absurd h (jsonDelete_ne_of_get v k e hg)
  · intro h
    rw [walkPrune]
    simp only [h]

theorem clean_delete (v : Json) (m : List String) (k kd : String)
    (h : (walkPrune v m k).1 = v) :
    (walkPrune (jsonDelete v kd) m k).1 = jsonDelete v kd := by
  cases m with
  | nil =>
    rw [clean_nil] at h ⊢
    by_cases hk : k = kd
    · rw [hk]
      exact jsonGet_delete_self v kd
    · rw [jsonGet_delete_ne v k kd hk]
      exact h
  | cons seg rest =>
    have hidx := ctorIdx_jsonDelete v kd
    rw [walkPrune] at h ⊢
    rw [isArr_eq_of_ctorIdx hidx]
    by_cases hw : (seg == ARRAY_INDEX_WILDCARD && v.isArr) = true
    · rw [if_pos hw] at h ⊢
      have harr : v.isArr = true := by
        rw [Bool.and_eq_true] at hw
        exact hw.2
      obtain ⟨es, rfl⟩ : ∃ es, v = .arr es := by
        cases v <;> simp_all [Json.isArr]
      simp only [Json.arrElems] at h
      injection h with h
      have hpt := mapSelfInv _ es h
      cases hpk : parseArrayIndex kd with
      | none =>
        simp only [jsonDelete, hpk]
        dsimp only [Json.arrElems]
        rw [mapSelf _ es hpt]
      | some i =>
        simp only [jsonDelete, hpk]
        dsimp only [Json.arrElems]
        rw [mapSelf]
        intro e he
        rcases memSetOr Json.undef es i e he with h' | rfl
        · exact hpt e h'
        · rfl
    · rw [if_neg hw] at h ⊢
      by_cases hk : seg = kd
      · subst hk
        simp only [jsonGet_delete_self]
      · simp only [jsonGet_delete_ne v seg kd hk]
        cases hg : jsonGet v seg with
        | none => simp only [hg]
        | some child =>
          simp only [hg] at h ⊢
          by_cases hr : (walkPrune child rest k).2 = true
          · rw [if_pos hr] at h ⊢
            rw [jsonSet_delete_comm v seg kd _ hk, h]
          · rw [if_neg hr]

theorem jsonGet_ne_undef {v : Json} {s : String} {c : Json}
    (h : jsonGet v s = some c) : ¬ c = Json.undef := by
  cases v with
  | obj fields =>
    simp only [jsonGet] at h
    cases hf : fields.find? (fun p => decide (p.1 = s)) with
    | none => simp [hf] at h
    | some p =>
      simp only [hf] at h
      by_cases hu : p.2 = Json.undef
      · rw [if_pos hu] at h
        exact absurd h (by simp)
      · rw [if_neg hu] at h
        have h2 : p.2 = c := by injection h
        intro hc
        exact hu (h2.trans hc)
  | arr elems =>
    simp only [jsonGet, List.get?_eq_getElem?] at h
    cases hp : parseArrayIndex s with
    | none => simp [hp] at h
    | some i =>
      simp only [hp] at h
      cases he : elems[i]? with
      | none => simp [he] at h
      | some e =>
        simp only [he] at h
        by_cases hu : e = Json.undef
        · rw [if_pos hu] at h
          exact absurd h (by simp)
        · rw [if_neg hu] at h
          have h2 : e = c := by injection h
          intro hc
          exact hu (h2.trans hc)
  | undef => simp [jsonGet] at h
  | null => simp [jsonGet] at h
  | bool b => simp [jsonGet] at h
  | num q => simp [jsonGet] at h
  | str s' => simp [jsonGet] at h

theorem memOfGet {α : Type} : ∀ (l : List α) (i : Nat) (a : α),
    l[i]? = some a → a ∈ l := by
  intro l
  induction l with
  | nil => intro i a h; simp at h
  | cons c t ih =>
    intro i a h
    cases i with
    | zero =>
      simp at h
      simp [h]
    | succ j =>
      simp at h
      exact List.mem_cons_of_mem c (ih j a h)

theorem jsonGet_arr_elim {es : List Json} {s : String} {c : Json}
    (h : jsonGet (.arr es) s = some c) :
    ∃ i, parseArrayIndex s = some i ∧ es[i]? = some c := by
  simp only [jsonGet, List.get?_eq_getElem?] at h
  cases hp : parseArrayIndex s with
  | none => simp [hp] at h
  | some i =>
    simp only [hp] at h
    cases he : es[i]? with
    | none => simp [he] at h
    | some e =>
      simp only [he] at h
      by_cases hu : e = Json.undef
      · rw [if_pos hu] at h
        exact absurd h (by simp)
      · rw [if_neg hu] at h
        have h2 : e = c := by injection h
        exact ⟨i, rfl, by rw [he, h2]⟩

theorem jsonGet_arr_map_prune (es : List Json) (rest : List String) (kp s : String) :
    jsonGet (.arr (es.map (fun e => if e = .undef then e else (walkPrune e rest kp).1))) s =
      (jsonGet (.arr es) s).map (fun c => (walkPrune c rest kp).1) := by
  simp only [jsonGet, List.get?_eq_getElem?]
  cases hp : parseArrayIndex s with
  | none =>
    simp only [hp]
    rfl
  | some i =>
    simp only [hp, List.getElem?_map]
    cases he : es[i]? with
    | none =>
      simp only [he]
      rfl
    | some e =>
      simp only [he, Option.map_some']
      by_cases hu : e = Json.undef
      · simp [hu]
      · simp [hu, walkPrune_ne_undef rest kp hu]

theorem walkPrune_self (k : String) :
    ∀ (m : List String) (v : Json),
      (walkPrune ((walkPrune v m k).1) m k).1 = (walkPrune v m k).1 := by
  intro m
  induction m with
  | nil =>
    intro v
    rw [clean_nil]
    cases hg : jsonGet v k with
    | none =>
      rw [walkPrune]
      simp only [hg]
    | some e =>
      rw [walkPrune]
      simp only [hg]
      exact jsonGet_delete_self v k
  | cons seg rest ih =>
    intro v
    by_cases hw : (seg == ARRAY_INDEX_WILDCARD && v.isArr) = true
    · obtain ⟨es, rfl⟩ : ∃ es, v = .arr es := by
        rw [Bool.and_eq_true] at hw
        have harr := hw.2
        cases v <;> simp_all [Json.isArr]
      have hval : (walkPrune (Json.arr es) (seg :: rest) k).1 =
          .arr (es.map (fun e => if e = .undef then e else (walkPrune e rest k).1)) := by
        rw [walkPrune, if_pos hw]
        simp only [Json.arrElems]
      rw [hval]
      rw [walkPrune, if_pos (by
        rw [Bool.and_eq_true] at hw ⊢
        exact ⟨hw.1, rfl⟩)]
      dsimp only [Json.arrElems]
      rw [List.map_map]
      congr 1
      apply List.map_congr_left
      intro e he
      by_cases hu : e = Json.undef
      · simp [Function.comp, hu]
      · simp only [Function.comp]
        rw [if_neg hu, if_neg (walkPrune_ne_undef rest k hu), ih e]
    · cases hg : jsonGet v seg with
      | none =>
        have hval : (walkPrune v (seg :: rest) k).1 = v := by
          rw [walkPrune, if_neg hw]
          simp only [hg]
        rw [hval]
        exact hval
      | some child =>
        by_cases hr : (walkPrune child rest k).2 = true
        · have hval : (walkPrune v (seg :: rest) k).1 =
              jsonSet v seg (walkPrune child rest k).1 := by
            rw [walkPrune, if_neg hw]
            simp only [hg]
            rw [if_pos hr]
          rw [hval]
          rw [walkPrune]
          rw [isArr_eq_of_ctorIdx (ctorIdx_jsonSet v seg (walkPrune child rest k).1)]
          rw [if_neg hw]
          have hget2 : jsonGet (jsonSet v seg (walkPrune child rest k).1) seg =
              some (walkPrune child rest k).1 :=
            jsonGet_set_self v seg _ child hg
              (walkPrune_ne_undef rest k (jsonGet_ne_undef hg))
          simp only [hget2]
          by_cases hr2 : (walkPrune ((walkPrune child rest k).1) rest k).2 = true
          · rw [if_pos hr2, ih child, jsonSet_jsonSet]
          · rw [if_neg hr2]
        · have hval : (walkPrune v (seg :: rest) k).1 = v := by
            rw [walkPrune, if_neg hw]
            simp only [hg]
            rw [if_neg hr]
          rw [hval]
          exact hval

theorem clean_preserved (kc kp : String) :
    ∀ (mp : List String) (v : Json) (mc : List String),
      (walkPrune v mc kc).1 = v →
      (walkPrune ((walkPrune v mp kp).1) mc kc).1 = (walkPrune v mp kp).1 := by
  intro mp
  induction mp with
  | nil =>
    intro v mc h
    cases hg : jsonGet v kp with
    | none =>
      have hval : (walkPrune v [] kp).1 = v := by
        rw [walkPrune]
        simp only [hg]
      rw [hval]
      exact h
    | some e =>
      have hval : (walkPrune v [] kp).1 = jsonDelete v kp := by
        rw [walkPrune]
        simp only [hg]
      rw [hval]
      exact clean_delete v mc kc kp h
  | cons seg rest ih =>
    intro v mc h
    by_cases hw : (seg == ARRAY_INDEX_WILDCARD && v.isArr) = true
    · obtain ⟨es, rfl⟩ : ∃ es, v = .arr es := by
        rw [Bool.and_eq_true] at hw
        have harr := hw.2
        cases v <;> simp_all [Json.isArr]
      have hval : (walkPrune (Json.arr es) (seg :: rest) kp).1 =
          .arr (es.map (fun e => if e = .undef then e else (walkPrune e rest kp).1)) := by
        rw [walkPrune, if_pos hw]
        simp only [Json.arrElems]
      rw [hval]
      cases mc with
      | nil =>
        rw [clean_nil] at h ⊢
        rw [jsonGet_arr_map_prune, h]
        rfl
      | cons s1 m =>
        rw [walkPrune] at h ⊢
        by_cases hs : (s1 == ARRAY_INDEX_WILDCARD) = true
        · rw [if_pos (by simp [hs, Json.isArr])] at h
          rw [if_pos (by simp [hs, Json.isArr])]
          simp only [Json.arrElems] at h ⊢
          injection h with h
          have hpt := mapSelfInv _ es h
          congr 1
          rw [List.map_map]
          apply List.map_congr_left
          intro e he
          by_cases hu : e = Json.undef
          · simp [Function.comp, hu]
          · simp only [Function.comp]
            rw [if_neg hu, if_neg (walkPrune_ne_undef rest kp hu)]
            have hce := hpt e he
            rw [if_neg hu] at hce
            exact ih e m hce
        · rw [if_neg (by simp [hs])] at h
          rw [if_neg (by simp [hs])]
          rw [jsonGet_arr_map_prune]
          cases hge : jsonGet (Json.arr es) s1 with
          | none => simp only [hge, Option.map_none']
          | some child =>
            simp only [hge, Option.map_some'] at h ⊢
            have hcc : (walkPrune child m kc).1 = child := by
              by_cases hra : (walkPrune child m kc).2 = true
              · rw [if_pos hra] at h
                exact jsonSet_eq_self_imp hge h
              · exact walkPrune_of_not_acted child m kc (by rwa [Bool.not_eq_true] at hra)
            have hc2 := ih child m hcc
            by_cases hr2 : (walkPrune ((walkPrune child rest kp).1) m kc).2 = true
            · rw [if_pos hr2, hc2]
              obtain ⟨i, hpi, hei⟩ := jsonGet_arr_elim hge
              simp only [jsonSet, hpi]
              congr 1
              apply setSelf
              rw [List.getElem?_map, hei, Option.map_some']
              rw [if_neg (jsonGet_ne_undef hge)]
            · rw [if_neg hr2]
    · cases hg2 : jsonGet v seg with
      | none =>
        have hval : (walkPrune v (seg :: rest) kp).1 = v := by
          rw [walkPrune, if_neg hw]
          simp only [hg2]
        rw [hval]
        exact h
      | some child2 =>
        by_cases hr2 : (walkPrune child2 rest kp).2 = true
        · have hval : (walkPrune v (seg :: rest) kp).1 =
              jsonSet v seg (walkPrune child2 rest kp).1 := by
            rw [walkPrune, if_neg hw]
            simp only [hg2]
            rw [if_pos hr2]
          rw [hval]
          have hidx := ctorIdx_jsonSet v seg (walkPrune child2 rest kp).1
          cases mc with
          | nil =>
            rw [clean_nil] at h ⊢
            by_cases hk : kc = seg
            · rw [hk, hg2] at h
              exact absurd h (by simp)
            · rw [jsonGet_set_ne v seg kc _ hk]
              exact h
          | cons s1 m =>
            rw [walkPrune] at h ⊢
            rw [isArr_eq_of_ctorIdx hidx]
            by_cases hw1 : (s1 == ARRAY_INDEX_WILDCARD && v.isArr) = true
            · rw [if_pos hw1] at h ⊢
              obtain ⟨es, rfl⟩ : ∃ es, v = .arr es := by
                rw [Bool.and_eq_true] at hw1
                have harr := hw1.2
                cases v <;> simp_all [Json.isArr]
              simp only [Json.arrElems] at h
              injection h with h
              have hpt := mapSelfInv _ es h
              obtain ⟨i, hpi, hei⟩ := jsonGet_arr_elim hg2
              simp only [jsonSet, hpi, Json.arrElems]
              congr 1
              apply mapSelf
              intro e he
              rcases memSetOr _ es i e he with h' | rfl
              · exact hpt e h'
              · have hc2u : ¬ child2 = Json.undef := jsonGet_ne_undef hg2
                rw [if_neg (walkPrune_ne_undef rest kp hc2u)]
                have hcm := hpt child2 (memOfGet es i child2 hei)
                rw [if_neg hc2u] at hcm
                exact ih child2 m hcm
            · rw [if_neg hw1] at h ⊢
              by_cases hks : s1 = seg
              · subst hks
                simp only [hg2] at h
                have hcc : (walkPrune child2 m kc).1 = child2 := by
                  by_cases hra : (walkPrune child2 m kc).2 = true
                  · rw [if_pos hra] at h
                    exact jsonSet_eq_self_imp hg2 h
                  · exact walkPrune_of_not_acted child2 m kc (by rwa [Bool.not_eq_true] at hra)
                have hc2 := ih child2 m hcc
                have hgw : jsonGet (jsonSet v s1 (walkPrune child2 rest kp).1) s1 =
                    some ((walkPrune child2 rest kp).1) :=
                  jsonGet_set_self v s1 _ child2 hg2
                    (walkPrune_ne_undef rest kp (jsonGet_ne_undef hg2))
                simp only [hgw]
                by_cases hrb : (walkPrune ((walkPrune child2 rest kp).1) m kc).2 = true
                · rw [if_pos hrb, hc2, jsonSet_jsonSet]
                · rw [if_neg hrb]
              · simp only [jsonGet_set_ne v seg s1 _ hks]
                cases hg1 : jsonGet v s1 with
                | none => simp only [hg1]
                | some child1 =>
                  simp only [hg1] at h ⊢
                  by_cases hra : (walkPrune child1 m kc).2 = true
                  · rw [if_pos hra] at h ⊢
                    rw [jsonSet_comm _ s1 seg _ _ hks, h]
                  · rw [if_neg hra]
        · have hval : (walkPrune v (seg :: rest) kp).1 = v := by
            rw [walkPrune, if_neg hw]
            simp only [hg2]
            rw [if_neg hr2]
          rw [hval]
          exact h

theorem pairEta {α β : Type} : ∀ (p : α × β) (b : β), p.2 = b → p = (p.1, b) := by
  intro p b h
  cases p with
  | mk a b2 =>
    cases h
    rfl

/-- After `deepRemovePath` returns `true`, its output value is clean with
respect to the same exclude path: running `deepRemovePath` again neither
changes the value nor flips the boolean. -/
theorem drClean_self {path : String} {e : List String} {v v2 : Json}
    (h : deepRemovePath path v e = (v2, true)) : DrClean path e v2 := by
  unfold DrClean
  simp only [deepRemovePath] at h ⊢
  by_cases hc : isPathContained (sanitizeEmptyPath (getArrayFromPath path)) e
  · rw [if_pos hc] at h ⊢
    cases hl : e.getLast? with
    | none => simp only [hl]
    | some lk =>
      simp only [hl] at h ⊢
      injection h with h1 h2
      subst h1
      rw [Prod.mk.injEq]
      constructor
      · exact walkPrune_self lk _ v
      · rw [walkPrune_self lk _ v]
        by_cases hr : (walkPrune v
            ((e.drop (sanitizeEmptyPath (getArrayFromPath path)).length).dropLast) lk).2 = true
        · rw [hr] at h2
          simp at h2
          simp [h2]
        · have hna := walkPrune_of_not_acted v _ lk (by rwa [Bool.not_eq_true] at hr)
          rw [hna]
          rw [Bool.not_eq_true] at hr
          rw [hr]
          simp
  · rw [if_neg hc] at h ⊢

theorem drm_aux (path : String) (e1 : List String) (mid2 : List String) (lk2 : String)
    (v : Json)
    (hb : (!((walkPrune v mid2 lk2).2 && jsonKeysEmpty ((walkPrune v mid2 lk2).1))) = true)
    (h1 : deepRemovePath path v e1 = (v, true)) :
    deepRemovePath path ((walkPrune v mid2 lk2).1) e1 = ((walkPrune v mid2 lk2).1, true) := by
  by_cases hr2 : (walkPrune v mid2 lk2).2 = true
  · have hemp : jsonKeysEmpty ((walkPrune v mid2 lk2).1) = false := by
      rw [hr2] at hb
      simpa using hb
    simp only [deepRemovePath] at h1 ⊢
    by_cases hc1 : isPathContained (sanitizeEmptyPath (getArrayFromPath path)) e1
    · rw [if_pos hc1] at h1 ⊢
      cases hl1 : e1.getLast? with
      | none => simp only [hl1]
      | some lk1 =>
        simp only [hl1] at h1 ⊢
        injection h1 with h1a h1b
        rw [Prod.mk.injEq]
        constructor
        · exact clean_preserved lk1 lk2 mid2 v _ h1a
        · rw [clean_preserved lk1 lk2 mid2 v _ h1a, hemp]
          simp
    · rw [if_neg hc1]
  · rw [walkPrune_of_not_acted v mid2 lk2 (by rwa [Bool.not_eq_true] at hr2)]
    exact h1

/-- A value clean for one exclude path stays clean after another exclude
path's prune, provided that prune returned `true`. -/
theorem drClean_preserved {path : String} {e1 e2 : List String} {v v2 : Json}
    (h1 : DrClean path e1 v) (h2 : deepRemovePath path v e2 = (v2, true)) :
    DrClean path e1 v2 := by
  unfold DrClean at h1 ⊢
  simp only [deepRemovePath] at h2
  by_cases hc2 : isPathContained (sanitizeEmptyPath (getArrayFromPath path)) e2
  · rw [if_pos hc2] at h2
    cases hl2 : e2.getLast? with
    | none =>
      simp only [hl2] at h2
      injection h2 with h2a _
      rw [← h2a]
      exact h1
    | some lk2 =>
      simp only [hl2] at h2
      injection h2 with h2a h2b
      rw [← h2a]
      exact drm_aux path e1 _ lk2 v h2b h1
  · rw [if_neg hc2] at h2
    injection h2 with h2a _
    rw [← h2a]
    exact h1

theorem runDR_preserved (path : String) (e0 : List String) :
    ∀ (es : List (List String)) (v w : Json),
      DrClean path e0 v → runDeepRemoves path v es = (w, true) → DrClean path e0 w := by
  intro es
  induction es with
  | nil =>
    intro v w h hr
    rw [runDeepRemoves] at hr
    injection hr with h1 _
    rw [← h1]
    exact h
  | cons e t ih =>
    intro v w h hr
    simp only [runDeepRemoves] at hr
    by_cases hb : (deepRemovePath path v e).2 = true
    · rw [if_pos hb] at hr
      have hde : deepRemovePath path v e = ((deepRemovePath path v e).1, true) :=
        pairEta _ _ hb
      exact ih _ w (drClean_preserved h hde) hr
    · rw [if_neg hb] at hr
      injection hr with _ h2
      exact absurd h2 (by simpa using hb)

theorem runDR_all_clean (path : String) :
    ∀ (es : List (List String)) (v : Json),
      (∀ e ∈ es, DrClean path e v) → runDeepRemoves path v es = (v, true) := by
  intro es
  induction es with
  | nil => intro v _; rfl
  | cons e t ih =>
    intro v h
    have he : deepRemovePath path v e = (v, true) := h e (by simp)
    simp only [runDeepRemoves, he]
    rw [if_pos trivial]
    exact ih v (fun e' he' => h e' (List.mem_cons_of_mem e he'))

theorem runDR_clean_out (path : String) :
    ∀ (es : List (List String)) (v w : Json),
      runDeepRemoves path v es = (w, true) → ∀ e ∈ es, DrClean path e w := by
  intro es
  induction es with
  | nil =>
    intro v w _ e he
    simp at he
  | cons e0 t ih =>
    intro v w hr e he
    simp only [runDeepRemoves] at hr
    by_cases hb : (deepRemovePath path v e0).2 = true
    · rw [if_pos hb] at hr
      have hde : deepRemovePath path v e0 = ((deepRemovePath path v e0).1, true) :=
        pairEta _ _ hb
      rw [List.mem_cons] at he
      rcases he with rfl | he
      · exact runDR_preserved path e t _ w (drClean_self hde) hr
      · exact ih _ w hr e he
    · rw [if_neg hb] at hr
      injection hr with _ h2
      exact absurd h2 (by simpa using hb)

theorem runDR_idem (path : String) (es : List (List String)) (v w : Json)
    (h : runDeepRemoves path v es = (w, true)) :
    runDeepRemoves path w es = (w, true) :=
  runDR_all_clean path es w (runDR_clean_out path es v w h)

theorem processOp_idem (excludes : List (List String)) (op op' : PatchOp)
    (h : processOp excludes op = some op') : processOp excludes op' = some op' := by
  simp only [processOp] at h
  by_cases hc : excludes.any (fun ex => isPathContained ex (getArrayFromPath op.path)) = true
  · rw [if_pos hc] at h
    exact absurd h (by simp)
  · rw [if_neg hc] at h
    by_cases hb : (runDeepRemoves op.path op.value excludes).2 = true
    · rw [if_pos hb] at h
      injection h with h
      subst h
      have hrun : runDeepRemoves op.path op.value excludes =
          ((runDeepRemoves op.path op.value excludes).1, true) := pairEta _ _ hb
      have hidem := runDR_idem op.path excludes op.value _ hrun
      simp only [processOp]
      rw [if_neg hc, hidem, if_pos rfl]
    · rw [if_neg hb] at h
      exact absurd h (by simp)

theorem filterMapIdem {α : Type} (f : α → Option α)
    (hf : ∀ x y, f x = some y → f y = some y) :
    ∀ (l : List α), (l.filterMap f).filterMap f = l.filterMap f := by
  intro l
  induction l with
  | nil => rfl
  | cons x t ih =>
    rw [List.filterMap_cons]
    cases hx : f x with
    | none =>
      simp only [hx]
      exact ih
    | some y =>
      simp only [hx]
      simp only [List.filterMap_cons, hf x y hx]
      rw [ih]

/-- C9: Exclusion filtering is idempotent: for every operation list and every
set of exclude patterns, filtering the already-filtered list with the same
patterns yields the same list — the same surviving operations in the same
order with the same pruned values. -/
theorem exclusion_filter_idempotent (ops : List PatchOp) (excludes : List (List String)) :
    filterOps (filterOps ops excludes) excludes = filterOps ops excludes := by
  unfold filterOps
  exact filterMapIdem (processOp excludes)
    (fun x y h => processOp_idem excludes x y h) ops
